import Mathlib

/-!
Verification of the open-addressing hash table implemented in
`src/flat_buffered_unordered_map.cpp` (class `flat_unordered_map`).

Embedding conventions:
* keys and mapped values are instantiated at `Nat` (the C++ class is a template;
  the default `std::equal_to` key equality becomes `=` on `Nat`), the hash
  functor is an arbitrary function `h : Nat → Nat`;
* `size_type` (64-bit `std::size_t`) is modelled as `Nat`; the one place where
  unsigned wrap-around matters (`next_pow2`, whose bit-smearing and `+ 1` are
  64-bit operations) carries an explicit `% 2 ^ 64`;
* the `float` fields and expressions (`max_load_factor_`, `current_load`) are
  modelled as exact rationals `ℚ`;
* the unbounded `for (;;)` probe loops are given fuel equal to the bucket-array
  length, which is exactly the number of distinct slots the probe sequence
  visits; an exhausted loop (the C++ code would spin forever) yields `none`;
* the mutual recursion `insert_or_assign_impl → rehash_if_needed → rehash →
  reinsert loop → insert_or_assign_impl` is given an explicit fuel parameter,
  with `none` for exhaustion; all theorems are stated on runs that complete
  (`= some _`), and witnesses evaluate the functions with ample fuel;
* C++ functions that mutate `*this` become functions `Map → ... → Map`
  (returning the updated table next to their C++ return value) and the
  `throw std::invalid_argument` in `max_load_factor` becomes `Except.error`.
-/

namespace FlatMap

/-- Slot state tag, `enum class State` at line 22 of the source. -/
inductive State : Type
  | Empty
  | Filled
  | Deleted
deriving DecidableEq, Repr

/-- One storage slot, `struct Bucket` (lines 24-30): a key, a value and a state
tag; `Bucket()` default-initializes to zeroed key/value and `Empty`. -/
structure Bucket : Type where
  key : Nat
  value : Nat
  state : State
deriving DecidableEq, Repr

/-- The default-constructed `Bucket{}`. -/
def emptyBucket : Bucket := ⟨0, 0, State.Empty⟩

/-- The table state: fields `buckets_`, `size_`, `tombstones_` and
`max_load_factor_` (lines 32-35). -/
structure Map : Type where
  buckets : List Bucket
  size : Nat
  tombstones : Nat
  max_load_factor : ℚ
deriving DecidableEq, Repr

/-- The default-constructed table (line 98): empty storage, zero counters,
`max_load_factor_ = 0.7f`. -/
def mkMap : Map :=
  { buckets := [], size := 0, tombstones := 0, max_load_factor := 7/10 }

/-- The six `x |= x >> i` steps (i = 1,2,4,8,16,32) of `next_pow2`'s loop
(line 43) on a 64-bit `size_type`. -/
def smear (y : Nat) : Nat :=
  let y1 := y ||| (y >>> 1)
  let y2 := y1 ||| (y1 >>> 2)
  let y3 := y2 ||| (y2 >>> 4)
  let y4 := y3 ||| (y3 >>> 8)
  let y5 := y4 ||| (y4 >>> 16)
  y5 ||| (y5 >>> 32)

/-- `next_pow2` (lines 40-45).  The argument and result are 64-bit, hence the
explicit truncations: `x + 1` overflows to `0` when the smeared value is
`2 ^ 64 - 1` (the shifts and ors themselves never overflow). -/
def next_pow2 (x : Nat) : Nat :=
  if x % 2 ^ 64 < 2 then 2 else (smear (x % 2 ^ 64 - 1) + 1) % 2 ^ 64

/-- `mask()` (line 47): `buckets_.size() - 1` (`Nat` subtraction mirrors the
unsigned wrap only being used when the array is non-empty). -/
def mask (bs : List Bucket) : Nat := bs.length - 1

/-- `bucket_index` (lines 49-51): `hasher_(k) & mask()`. -/
def bucket_index (h : Nat → Nat) (bs : List Bucket) (k : Nat) : Nat :=
  h k &&& mask bs

/-- `current_load` (lines 53-55) with the float division modelled in `ℚ`. -/
def current_load (m : Map) : ℚ :=
  ((m.size + m.tombstones : Nat) : ℚ) / (m.buckets.length : ℚ)

/-- The `for (;;)` probe walk of `find` (lines 139-144), with fuel.  Outer
`none` = the C++ loop would run past every slot (or index out of range);
`some none` = `return nullptr` on an `Empty` slot; `some (some v)` = hit a
`Filled` slot with an equal key. -/
def findLoop (k : Nat) (bs : List Bucket) : Nat → Nat → Option (Option Nat)
  | _, 0 => none
  | idx, fuel+1 =>
    match bs.get? idx with
    | none => none
    | some b =>
      if b.state = State.Empty then some none
      else if b.state = State.Filled ∧ b.key = k then some (some b.value)
      else findLoop k bs ((idx + 1) &&& mask bs) fuel

/-- `find` (lines 136-145): `nullptr` on empty storage, otherwise the probe
walk from `bucket_index(k)`.  (The `const` overload at lines 147-156 is the
same algorithm on the same state and is covered by this one definition.) -/
def find (h : Nat → Nat) (m : Map) (k : Nat) : Option (Option Nat) :=
  if m.buckets.isEmpty then some none
  else findLoop k m.buckets (bucket_index h m.buckets k) m.buckets.length

/-- The `for (;;)` probe walk of `insert_or_assign_impl` (lines 72-94), with
fuel.  Returns `(new array, written index, was-newly-inserted,
target-was-Deleted)`; the last component records the `t.state == Deleted`
test guarding `tombstones_--` (line 79).  `firstDeleted = none` models
`first_deleted == size_type(-1)`. -/
def insertLoop (k v : Nat) (bs : List Bucket) :
    Nat → Option Nat → Nat → Option (List Bucket × Nat × Bool × Bool)
  | _, _, 0 => none
  | idx, firstDeleted, fuel+1 =>
    match bs.get? idx with
    | none => none
    | some b =>
      match b.state with
      | State.Empty =>
        let target := firstDeleted.getD idx
        let wasDel : Bool :=
          decide ((bs.get? target).map Bucket.state = some State.Deleted)
        some (bs.set target ⟨k, v, State.Filled⟩, target, true, wasDel)
      | State.Deleted =>
        insertLoop k v bs ((idx + 1) &&& mask bs) (some (firstDeleted.getD idx)) fuel
      | State.Filled =>
        if b.key = k then some (bs.set idx ⟨b.key, v, State.Filled⟩, idx, false, false)
        else insertLoop k v bs ((idx + 1) &&& mask bs) firstDeleted fuel

mutual

/-- `insert_or_assign_impl` (lines 64-95): growth check, then the probe walk;
on a fresh insertion `size_++` and, when a `Deleted` slot was reused,
`tombstones_--`.  Returns the updated table with `{position, inserted}`. -/
def insert_or_assign_impl (fuel : Nat) (h : Nat → Nat) (m : Map) (k v : Nat) :
    Option (Map × Nat × Bool) :=
  match fuel with
  | 0 => none
  | fuel + 1 =>
    match rehash_if_needed fuel h m with
    | none => none
    | some m1 =>
      match insertLoop k v m1.buckets (bucket_index h m1.buckets k) none
          m1.buckets.length with
      | none => none
      | some (bs, target, true, wasDel) =>
        some ({ m1 with
                buckets := bs
                size := m1.size + 1
                tombstones := if wasDel then m1.tombstones - 1 else m1.tombstones },
              target, true)
      | some (bs, target, false, _) =>
        some ({ m1 with buckets := bs }, target, false)

/-- `rehash_if_needed` (lines 57-62): grow to 16 (empty storage) or to twice
the current length whenever `current_load() > max_load_factor_`. -/
def rehash_if_needed (fuel : Nat) (h : Nat → Nat) (m : Map) : Option Map :=
  match fuel with
  | 0 => none
  | fuel + 1 =>
    if m.buckets.isEmpty ∨ m.max_load_factor < current_load m then
      rehash fuel h m (if m.buckets.isEmpty then 16 else m.buckets.length * 2)
    else some m

/-- `rehash` (lines 109-123): round the request with `next_pow2`, clamp below
at 2, allocate a fresh default array, reset the counters and reinsert every
`Filled` slot of the old array through `insert_or_assign_impl`. -/
def rehash (fuel : Nat) (h : Nat → Nat) (m : Map) (new_bucket_count : Nat) :
    Option Map :=
  match fuel with
  | 0 => none
  | fuel + 1 =>
    let n1 := next_pow2 new_bucket_count
    let n2 := if n1 < 2 then 2 else n1
    reinsertAll fuel h m.buckets
      { m with
        buckets := List.replicate n2 emptyBucket
        size := 0
        tombstones := 0 }

/-- The reinsertion loop of `rehash` (lines 118-122) over the moved-out old
array. -/
def reinsertAll (fuel : Nat) (h : Nat → Nat) (old : List Bucket) (m : Map) :
    Option Map :=
  match fuel with
  | 0 => none
  | fuel + 1 =>
    match old with
    | [] => some m
    | b :: rest =>
      if b.state = State.Filled then
        match insert_or_assign_impl fuel h m b.key b.value with
        | none => none
        | some (m', _, _) => reinsertAll fuel h rest m'
      else reinsertAll fuel h rest m

end

/-- The public `insert_or_assign` (lines 126-133): the impl's flag together
with the value stored at the returned position (`&buckets_[pos].value`). -/
def insert_or_assign (fuel : Nat) (h : Nat → Nat) (m : Map) (k v : Nat) :
    Option (Map × Bool × Option Nat) :=
  (insert_or_assign_impl fuel h m k v).map
    (fun r => (r.1, r.2.2, (r.1.buckets.get? r.2.1).map Bucket.value))

/-- The `for (;;)` probe walk of `erase` (lines 177-190), with fuel:
`some none` = stopped on `Empty` ("not found"); `some (some (i, b))` = the
`Filled` slot `b` with an equal key sits at index `i`. -/
def eraseLoop (k : Nat) (bs : List Bucket) : Nat → Nat → Option (Option (Nat × Bucket))
  | _, 0 => none
  | idx, fuel+1 =>
    match bs.get? idx with
    | none => none
    | some b =>
      if b.state = State.Empty then some none
      else if b.state = State.Filled ∧ b.key = k then some (some (idx, b))
      else eraseLoop k bs ((idx + 1) &&& mask bs) fuel

/-- `erase` (lines 174-191): walk, mark the found slot `Deleted` (key and value
stay materialized), `size_--`, `tombstones_++`, then compact by
`rehash(buckets_.size())` when `tombstones_ > buckets_.size() / 2`. -/
def erase (fuel : Nat) (h : Nat → Nat) (m : Map) (k : Nat) : Option (Bool × Map) :=
  if m.buckets.isEmpty then some (false, m)
  else
    match eraseLoop k m.buckets (bucket_index h m.buckets k) m.buckets.length with
    | none => none
    | some none => some (false, m)
    | some (some (i, b)) =>
      let m2 : Map :=
        { m with
          buckets := m.buckets.set i { b with state := State.Deleted }
          size := m.size - 1
          tombstones := m.tombstones + 1 }
      if m2.buckets.length / 2 < m2.tombstones then
        (rehash fuel h m2 m2.buckets.length).map (fun m' => (true, m'))
      else some (true, m2)

/-- `clear` (lines 193-197): every slot's state becomes `Empty` (keys/values
stay), counters reset, length unchanged. -/
def clear (m : Map) : Map :=
  { m with
    buckets := m.buckets.map (fun b => { b with state := State.Empty })
    size := 0
    tombstones := 0 }

/-- `reserve` (lines 203-207): `needed = size_type(n / max_load_factor_) + 1`
(float division truncated toward zero = `Nat.floor` on `ℚ`), rehash only when
`needed > buckets_.size()`. -/
def reserve (fuel : Nat) (h : Nat → Nat) (m : Map) (n : Nat) : Option Map :=
  let needed : Nat := ⌊(n : ℚ) / m.max_load_factor⌋₊ + 1
  if m.buckets.length < needed then rehash fuel h m needed else some m

/-- The error thrown by the `max_load_factor` setter. -/
inductive ConfigError : Type
  | InvalidConfiguration
deriving DecidableEq, Repr

/-- The `max_load_factor` setter (lines 209-213): reject `f <= 0.1f` and
`f >= 0.95f`, otherwise store the bound and run the growth check. -/
def set_max_load_factor (fuel : Nat) (h : Nat → Nat) (m : Map) (f : ℚ) :
    Option (Except ConfigError Map) :=
  if f ≤ 1/10 ∨ 19/20 ≤ f then some (Except.error ConfigError.InvalidConfiguration)
  else (rehash_if_needed fuel h { m with max_load_factor := f }).map Except.ok

/-- `operator[]` (lines 159-171): `find`, else insert a default-constructed
value (`T{} = 0`) and read it back through the returned position. -/
def index_access (fuel : Nat) (h : Nat → Nat) (m : Map) (k : Nat) :
    Option (Map × Nat) :=
  match find h m k with
  | none => none
  | some (some v) => some (m, v)
  | some none =>
    match insert_or_assign_impl fuel h m k 0 with
    | none => none
    | some (m', pos, _) =>
      match m'.buckets.get? pos with
      | none => none
      | some b => some (m', b.value)

/-- The explicit constructor `flat_unordered_map(bucket_count, ...)` (lines
100-107): storage of `next_pow2 bucket_count` default slots. -/
def mkMapWith (bucket_count : Nat) : Map :=
  { buckets := List.replicate (next_pow2 bucket_count) emptyBucket,
    size := 0, tombstones := 0, max_load_factor := 7/10 }

/-- Number of `Filled` slots of an array. -/
def filledCount (bs : List Bucket) : Nat :=
  bs.countP (fun b => b.state == State.Filled)

/-- Number of `Deleted` (tombstoned) slots of an array. -/
def deletedCount (bs : List Bucket) : Nat :=
  bs.countP (fun b => b.state == State.Deleted)

/-- The keys of the `Filled` slots, in slot order. -/
def filledKeys (bs : List Bucket) : List Nat :=
  bs.filterMap (fun b => if b.state = State.Filled then some b.key else none)

/-- Slot `i` is `Filled` with the pair `(k, v)`. -/
def FilledAt (bs : List Bucket) (i k v : Nat) : Prop :=
  bs.get? i = some ⟨k, v, State.Filled⟩

instance (bs : List Bucket) (i k v : Nat) : Decidable (FilledAt bs i k v) := by
  unfold FilledAt
  infer_instance

/-- Slot `i` is `Filled` and holds the key `k` (with whatever value). -/
def KeyAt (bs : List Bucket) (i k : Nat) : Prop :=
  (bs.get? i).map Bucket.state = some State.Filled ∧
    (bs.get? i).map Bucket.key = some k

instance (bs : List Bucket) (i k : Nat) : Decidable (KeyAt bs i k) := by
  unfold KeyAt
  infer_instance

/-- Some `Filled` slot holds the key `k`. -/
def HasKey (bs : List Bucket) (k : Nat) : Prop :=
  ∃ i < bs.length, KeyAt bs i k

instance (bs : List Bucket) (k : Nat) : Decidable (HasKey bs k) := by
  unfold HasKey
  infer_instance

/-- The storage length is a nontrivial power of two. -/
def LenPow (m : Map) : Prop :=
  ∃ q, 1 ≤ q ∧ m.buckets.length = 2 ^ q

/-- The storage is still unallocated, or its length is a nontrivial power of
two — the capacity invariant of every reachable state. -/
def LenOk (m : Map) : Prop :=
  m.buckets = [] ∨ LenPow m

/-- Some slot is `Filled` with exactly the pair `(k, v)`. -/
def HasPair (bs : List Bucket) (k v : Nat) : Prop :=
  ∃ i < bs.length, FilledAt bs i k v

instance (bs : List Bucket) (k v : Nat) : Decidable (HasPair bs k v) := by
  unfold HasPair
  infer_instance

/-- A bucket at which the probe walk of `find` (and of `erase`) stops: an
`Empty` slot, or a `Filled` slot with an equal key.  `Deleted` slots and
`Filled` slots with other keys are walked over. -/
def stopsFind (b : Bucket) (k : Nat) : Prop :=
  b.state = State.Empty ∨ (b.state = State.Filled ∧ b.key = k)

instance (b : Bucket) (k : Nat) : Decidable (stopsFind b k) := by
  unfold stopsFind
  infer_instance

/-- Probe-sequence invariant for one key: any `Filled` slot holding `k` lies
on the probe sequence of `k` strictly before the first `Empty` slot, so the
walks cannot miss it.  Every state the table reaches through its public
interface satisfies this for every key (the spec's probe-reachability
invariant); it is taken as a hypothesis where a theorem needs it. -/
def ProbeWF (h : Nat → Nat) (bs : List Bucket) (k : Nat) : Prop :=
  ∀ i < bs.length, KeyAt bs i k →
    ∃ j < bs.length, (h k + j) % bs.length = i ∧
      ∀ i' < j, ¬ (bs.get? ((h k + i') % bs.length)).map Bucket.state = some State.Empty

instance (h : Nat → Nat) (bs : List Bucket) (k : Nat) : Decidable (ProbeWF h bs k) := by
  unfold ProbeWF
  infer_instance

/-- Table states reachable through the public interface from a constructor,
with any fuel on each call. -/
inductive Reachable (h : Nat → Nat) : Map → Prop
  | default_ctor : Reachable h mkMap
  | bucket_ctor (n : Nat) : Reachable h (mkMapWith n)
  | insert_op {m m' : Map} {fuel k v pos : Nat} {flag : Bool} : Reachable h m →
      insert_or_assign_impl fuel h m k v = some (m', pos, flag) → Reachable h m'
  | erase_op {m m' : Map} {fuel k : Nat} {flag : Bool} : Reachable h m →
      erase fuel h m k = some (flag, m') → Reachable h m'
  | clear_op {m : Map} : Reachable h m → Reachable h (clear m)
  | reserve_op {m m' : Map} {fuel n : Nat} : Reachable h m →
      reserve fuel h m n = some m' → Reachable h m'
  | rehash_op {m m' : Map} {fuel n : Nat} : Reachable h m →
      rehash fuel h m n = some m' → Reachable h m'
  | set_mlf_op {m m' : Map} {fuel : Nat} {f : ℚ} : Reachable h m →
      set_max_load_factor fuel h m f = some (Except.ok m') → Reachable h m'
  | index_op {m m' : Map} {fuel k v : Nat} : Reachable h m →
      index_access fuel h m k = some (m', v) → Reachable h m'

/-- Probe-offset certificate for a successful `find`: offset `j` on `k`'s
probe sequence holds the pair `(k, v)` `Filled`, and no earlier offset stops
the walk (is `Empty`, or `Filled` with an equal key). -/
def FoundAtProbe (h : Nat → Nat) (bs : List Bucket) (k v j : Nat) : Prop :=
  j < bs.length ∧
  (∀ i < j, ∀ b, bs.get? ((h k + i) % bs.length) = some b → ¬ stopsFind b k) ∧
  bs.get? ((h k + j) % bs.length) = some ⟨k, v, State.Filled⟩

/-- Probe-offset certificate for a "not found" answer of `find`: offset `j`
on `k`'s probe sequence is `Empty`, and no earlier offset stops the walk. -/
def EmptyAtProbe (h : Nat → Nat) (bs : List Bucket) (k j : Nat) : Prop :=
  j < bs.length ∧
  (∀ i < j, ∀ b, bs.get? ((h k + i) % bs.length) = some b → ¬ stopsFind b k) ∧
  (bs.get? ((h k + j) % bs.length)).map Bucket.state = some State.Empty

/-- The identity hash functor used by the concrete example tables. -/
def exHash : Nat → Nat := fun k => k

/-- The two-slot table after inserting `(0, 10)` into the table constructed
with `bucket_count = 2`. -/
def exm1 : Map :=
  { buckets := [⟨0, 10, State.Filled⟩, emptyBucket],
    size := 1, tombstones := 0, max_load_factor := 7/10 }

/-- The two-slot table after further inserting `(1, 11)` into `exm1`; both
slots are `Filled`, so its load is `2 / 2 = 1`. -/
def exm2 : Map :=
  { buckets := [⟨0, 10, State.Filled⟩, ⟨1, 11, State.Filled⟩],
    size := 2, tombstones := 0, max_load_factor := 7/10 }

/-- The table `erase 0` leaves of the completely full `exm2`: the slot is
tombstoned in place and, the table having been full, no slot is `Empty` —
the probe walks of `find` have no stopper left. -/
def exm2e : Map :=
  { buckets := [⟨0, 10, State.Deleted⟩, ⟨1, 11, State.Filled⟩],
    size := 1, tombstones := 1, max_load_factor := 7/10 }

/-- Concrete table on the compaction path of `erase`: one live key, one
tombstone, two slots, so erasing the live key pushes `tombstones_` past
`bucket_count / 2`. -/
def c4m : Map :=
  { buckets := [⟨0, 10, State.Filled⟩, ⟨1, 11, State.Deleted⟩],
    size := 1, tombstones := 1, max_load_factor := 7/10 }

/-- Concrete table on the plain (non-compacting) path of `erase`. -/
def c5m : Map :=
  { buckets := [⟨0, 10, State.Filled⟩, emptyBucket, emptyBucket, emptyBucket],
    size := 1, tombstones := 0, max_load_factor := 7/10 }

/-- The table `erase 0` leaves of `c5m`: the slot is tombstoned in place. -/
def c5m2 : Map :=
  { buckets := [⟨0, 10, State.Deleted⟩, emptyBucket, emptyBucket, emptyBucket],
    size := 0, tombstones := 1, max_load_factor := 7/10 }

/-- The table produced by a successful `max_load_factor(0.5)` on the
two-slot table. -/
def c6res : Map :=
  { buckets := List.replicate 2 emptyBucket,
    size := 0, tombstones := 0, max_load_factor := 1/2 }

section WalkLemmas

variable {p : Nat} {bs : List Bucket} {k : Nat}

/-- Masking with `length - 1` is reduction mod the length, for power-of-two
lengths. -/
theorem and_mask_eq_mod (hL : bs.length = 2 ^ p) (x : Nat) :
    x &&& mask bs = x % bs.length := by
  unfold mask
  rw [hL]
  exact Nat.and_pow_two_sub_one_eq_mod x p

theorem length_pos_of_pow (hL : bs.length = 2 ^ p) : 0 < bs.length := by
  rw [hL]
  exact Nat.two_pow_pos p

theorem map_state_eq {l : List Bucket} {i : Nat} {b : Bucket}
    (hb : l.get? i = some b) : (l.get? i).map Bucket.state = some b.state := by
  rw [hb]
  rfl

theorem map_key_eq {l : List Bucket} {i : Nat} {b : Bucket}
    (hb : l.get? i = some b) : (l.get? i).map Bucket.key = some b.key := by
  rw [hb]
  rfl

/-- The probe step `(idx + 1) & mask` advances one offset along the probe
sequence. -/
theorem step_eq_mod (hL : bs.length = 2 ^ p) (i : Nat) :
    (i % bs.length + 1) &&& mask bs = (i + 1) % bs.length := by
  rw [and_mask_eq_mod hL, Nat.mod_add_mod]

theorem bucket_index_eq_mod (hL : bs.length = 2 ^ p) (h : Nat → Nat) :
    bucket_index h bs k = h k % bs.length := by
  unfold bucket_index
  exact and_mask_eq_mod hL (h k)

/-- Two distinct offsets below the length land on distinct slots. -/
theorem probe_offset_inj (hL : bs.length = 2 ^ p) {i j : Nat} (hi : i < bs.length)
    (hj : j < bs.length) (s : Nat)
    (hij : (s + i) % bs.length = (s + j) % bs.length) : i = j := by
  have h' : i ≡ j [MOD bs.length] := Nat.ModEq.add_left_cancel' s hij
  rwa [Nat.ModEq, Nat.mod_eq_of_lt hi, Nat.mod_eq_of_lt hj] at h'

/-- Forward walk lemma for `find`: if the first `j` probe slots do not stop the
walk and slot `j` is `Filled` with key `k`, the loop returns that value. -/
theorem findLoop_found (hL : bs.length = 2 ^ p) {v : Nat} :
    ∀ {j s fuel : Nat}, j < fuel →
    (∀ i < j, ∀ b, bs.get? ((s + i) % bs.length) = some b → ¬ stopsFind b k) →
    bs.get? ((s + j) % bs.length) = some ⟨k, v, State.Filled⟩ →
    findLoop k bs (s % bs.length) fuel = some (some v) := by
  intro j
  induction j with
  | zero =>
    intro s fuel hfuel _ hstop
    match fuel, hfuel with
    | fuel + 1, _ =>
      unfold findLoop
      rw [Nat.add_zero] at hstop
      rw [hstop]
      simp
  | succ j ih =>
    intro s fuel hfuel hpre hstop
    match fuel, hfuel with
    | fuel + 1, hfuel =>
      unfold findLoop
      obtain ⟨b0, hb0⟩ : ∃ b0, bs.get? (s % bs.length) = some b0 := by
        have hlt : s % bs.length < bs.length :=
          Nat.mod_lt _ (length_pos_of_pow hL)
        exact List.get?_eq_get hlt ▸ ⟨_, rfl⟩
      have hb0' := hpre 0 (Nat.succ_pos j) b0 (by rwa [Nat.add_zero])
      rw [hb0]
      have hne : ¬ b0.state = State.Empty := fun hc => hb0' (Or.inl hc)
      have hnm : ¬ (b0.state = State.Filled ∧ b0.key = k) := fun hc => hb0' (Or.inr hc)
      simp only [hne, hnm, if_false]
      rw [step_eq_mod hL]
      refine @ih (s + 1) fuel (Nat.lt_of_succ_lt_succ hfuel)
        (fun i hi b hb => hpre (i + 1) (Nat.succ_lt_succ hi) b
          (by rw [show s + (i + 1) = s + 1 + i from by omega]; exact hb)) ?_
      rw [show s + 1 + j = s + (j + 1) from by omega]
      exact hstop

/-- Forward walk lemma for `find`, `Empty` stopper: if the first `j` probe
slots do not stop the walk and slot `j` is `Empty`, the loop reports "not
found". -/
theorem findLoop_empty (hL : bs.length = 2 ^ p) :
    ∀ {j s fuel : Nat}, j < fuel →
    (∀ i < j, ∀ b, bs.get? ((s + i) % bs.length) = some b → ¬ stopsFind b k) →
    (∀ b, bs.get? ((s + j) % bs.length) = some b → b.state = State.Empty) →
    findLoop k bs (s % bs.length) fuel = some none := by
  intro j
  induction j with
  | zero =>
    intro s fuel hfuel _ hstop
    match fuel, hfuel with
    | fuel + 1, _ =>
      unfold findLoop
      obtain ⟨b0, hb0⟩ : ∃ b0, bs.get? (s % bs.length) = some b0 := by
        have hlt : s % bs.length < bs.length :=
          Nat.mod_lt _ (length_pos_of_pow hL)
        exact List.get?_eq_get hlt ▸ ⟨_, rfl⟩
      have hemp := hstop b0 (by rwa [Nat.add_zero])
      rw [hb0]
      simp [hemp]
  | succ j ih =>
    intro s fuel hfuel hpre hstop
    match fuel, hfuel with
    | fuel + 1, hfuel =>
      unfold findLoop
      obtain ⟨b0, hb0⟩ : ∃ b0, bs.get? (s % bs.length) = some b0 := by
        have hlt : s % bs.length < bs.length :=
          Nat.mod_lt _ (length_pos_of_pow hL)
        exact List.get?_eq_get hlt ▸ ⟨_, rfl⟩
      have hb0' := hpre 0 (Nat.succ_pos j) b0 (by rwa [Nat.add_zero])
      rw [hb0]
      have hne : ¬ b0.state = State.Empty := fun hc => hb0' (Or.inl hc)
      have hnm : ¬ (b0.state = State.Filled ∧ b0.key = k) := fun hc => hb0' (Or.inr hc)
      simp only [hne, hnm, if_false]
      rw [step_eq_mod hL]
      exact @ih (s + 1) fuel (Nat.lt_of_succ_lt_succ hfuel)
        (fun i hi b hb => hpre (i + 1) (Nat.succ_lt_succ hi) b
          (by rw [show s + (i + 1) = s + 1 + i from by omega]; exact hb))
        (fun b hb => hstop b
          (by rw [show s + (j + 1) = s + 1 + j from by omega]; exact hb))

/-- Backward walk lemma for `find`: a completed walk exhibits a stopping
offset with a clean prefix, describing exactly which slot determined the
result. -/
theorem findLoop_some (hL : bs.length = 2 ^ p) :
    ∀ {fuel idx : Nat} {r : Option Nat}, findLoop k bs idx fuel = some r →
    idx < bs.length →
    ∃ j < fuel,
      (∀ i < j, ∀ b, bs.get? ((idx + i) % bs.length) = some b → ¬ stopsFind b k) ∧
      ∃ b, bs.get? ((idx + j) % bs.length) = some b ∧
        (r = none → b.state = State.Empty) ∧
        (∀ v, r = some v → b.state = State.Filled ∧ b.key = k ∧ b.value = v) := by
  intro fuel
  induction fuel with
  | zero => intro idx r hr; exact absurd hr (by unfold findLoop; simp)
  | succ fuel ih =>
    intro idx r hr hidx
    unfold findLoop at hr
    obtain ⟨b0, hb0⟩ : ∃ b0, bs.get? idx = some b0 := by
      exact List.get?_eq_get hidx ▸ ⟨_, rfl⟩
    simp only [hb0] at hr
    by_cases hemp : b0.state = State.Empty
    · rw [if_pos hemp] at hr
      refine ⟨0, Nat.succ_pos _, fun i hi => absurd hi (Nat.not_lt_zero i), b0, ?_, ?_, ?_⟩
      · rwa [Nat.add_zero, Nat.mod_eq_of_lt hidx]
      · intro _; exact hemp
      · intro v hv; cases hr; cases hv
    · rw [if_neg hemp] at hr
      by_cases hm : b0.state = State.Filled ∧ b0.key = k
      · rw [if_pos hm] at hr
        refine ⟨0, Nat.succ_pos _, fun i hi => absurd hi (Nat.not_lt_zero i), b0, ?_, ?_, ?_⟩
        · rwa [Nat.add_zero, Nat.mod_eq_of_lt hidx]
        · intro hc; cases hr; cases hc
        · intro v hv
          cases hr
          cases hv
          exact ⟨hm.1, hm.2, rfl⟩
      · rw [if_neg hm] at hr
        have hidx' : (idx + 1) &&& mask bs < bs.length := by
          rw [show (idx + 1) &&& mask bs = (idx + 1) % bs.length from by
            have := step_eq_mod hL (i := idx)
            rwa [Nat.mod_eq_of_lt hidx] at this]
          exact Nat.mod_lt _ (length_pos_of_pow hL)
        obtain ⟨j, hj, hpre, b, hb, hbn, hbs⟩ := ih hr hidx'
        have hstep : (idx + 1) &&& mask bs = (idx + 1) % bs.length := by
          have := step_eq_mod hL (i := idx)
          rwa [Nat.mod_eq_of_lt hidx] at this
        refine ⟨j + 1, Nat.succ_lt_succ hj, ?_, b, ?_, hbn, hbs⟩
        · intro i hi b' hb'
          match i with
          | 0 =>
            rw [Nat.add_zero, Nat.mod_eq_of_lt hidx, hb0] at hb'
            cases hb'
            intro hc
            rcases hc with hc | hc
            · exact hemp hc
            · exact hm hc
          | i + 1 =>
            refine hpre i (Nat.lt_of_succ_lt_succ hi) b' ?_
            rw [hstep, Nat.mod_add_mod, show idx + 1 + i = idx + (i + 1) from by omega]
            exact hb'
        · rw [hstep, Nat.mod_add_mod, show idx + 1 + j = idx + (j + 1) from by omega] at hb
          exact hb

/-- Soundness of the insertion walk: a completed walk writes `⟨k, v, Filled⟩`
over exactly one slot `t`, the reused-tombstone flag records whether that slot
was `Deleted`, the assign path hits a `Filled` slot with key `k`, and the
insert path hits a non-`Filled` slot. -/
theorem insertLoop_eq (hL : bs.length = 2 ^ p) {v : Nat} :
    ∀ {fuel idx : Nat} {fd : Option Nat} {bs' : List Bucket} {t : Nat} {ins wd : Bool},
    insertLoop k v bs idx fd fuel = some (bs', t, ins, wd) →
    (∀ d, fd = some d → d < bs.length ∧
      (bs.get? d).map Bucket.state = some State.Deleted) →
    idx < bs.length →
    bs' = bs.set t ⟨k, v, State.Filled⟩ ∧ t < bs.length ∧
      (wd = true ↔ (bs.get? t).map Bucket.state = some State.Deleted) ∧
      (ins = false → KeyAt bs t k) ∧
      (ins = true → ¬ (bs.get? t).map Bucket.state = some State.Filled) := by
  intro fuel
  induction fuel with
  | zero => intro idx fd bs' t ins wd hr; exact absurd hr (by unfold insertLoop; simp)
  | succ fuel ih =>
    intro idx fd bs' t ins wd hr hfd hidx
    unfold insertLoop at hr
    obtain ⟨b0, hb0⟩ : ∃ b0, bs.get? idx = some b0 :=
      List.get?_eq_get hidx ▸ ⟨_, rfl⟩
    simp only [hb0] at hr
    cases hst : b0.state with
    | Empty =>
      simp only [hst] at hr
      simp only [Option.some.injEq, Prod.mk.injEq] at hr
      obtain ⟨hbs', ht, hins, hwd⟩ := hr
      subst hbs'
      subst ht
      subst hins
      subst hwd
      cases hfdc : fd with
      | none =>
        subst hfdc
        simp only [Option.getD_none]
        refine ⟨by trivial, hidx, by simp, by simp, ?_⟩
        intro _
        rw [map_state_eq hb0, hst]
        intro hc
        simp at hc
      | some d =>
        subst hfdc
        obtain ⟨hdlt, hdst⟩ := hfd d rfl
        simp only [Option.getD_some]
        refine ⟨by trivial, hdlt, by simp, by simp, ?_⟩
        intro _
        rw [hdst]
        intro hc
        simp at hc
    | Deleted =>
      simp only [hst] at hr
      have hidx' : (idx + 1) &&& mask bs < bs.length := by
        rw [show (idx + 1) &&& mask bs = (idx + 1) % bs.length from by
          have := step_eq_mod hL (i := idx)
          rwa [Nat.mod_eq_of_lt hidx] at this]
        exact Nat.mod_lt _ (length_pos_of_pow hL)
      refine ih hr ?_ hidx'
      intro d hd
      cases hfdc : fd with
      | none =>
        subst hfdc
        simp only [Option.getD_none, Option.some.injEq] at hd
        subst hd
        exact ⟨hidx, by rw [map_state_eq hb0, hst]⟩
      | some d0 =>
        subst hfdc
        simp only [Option.getD_some, Option.some.injEq] at hd
        subst hd
        exact hfd d0 rfl
    | Filled =>
      simp only [hst] at hr
      by_cases hk : b0.key = k
      · rw [if_pos hk] at hr
        simp only [Option.some.injEq, Prod.mk.injEq] at hr
        obtain ⟨hbs', ht, hins, hwd⟩ := hr
        subst hbs'
        subst ht
        subst hins
        subst hwd
        refine ⟨by rw [hk], hidx, ?_, ?_, by simp⟩
        · rw [map_state_eq hb0, hst]
          constructor
          · intro hc; simp at hc
          · intro hc; simp at hc
        · intro _
          exact ⟨by rw [map_state_eq hb0, hst], by rw [map_key_eq hb0, hk]⟩
      · rw [if_neg hk] at hr
        have hidx' : (idx + 1) &&& mask bs < bs.length := by
          rw [show (idx + 1) &&& mask bs = (idx + 1) % bs.length from by
            have := step_eq_mod hL (i := idx)
            rwa [Nat.mod_eq_of_lt hidx] at this]
          exact Nat.mod_lt _ (length_pos_of_pow hL)
        exact ih hr hfd hidx'

/-- Trace lemma for the insertion walk, relative to the probe start `s`: the
written slot lies at a probe offset whose prefix does not stop the `find`
walk, and a fresh insertion also exhibits an `Empty` slot on the sequence
whose prefix does not stop the walk. -/
theorem insertLoop_trace (hL : bs.length = 2 ^ p) {v s : Nat} :
    ∀ {fuel a : Nat} {fd : Option Nat} {bs' : List Bucket} {t : Nat} {ins wd : Bool},
    insertLoop k v bs ((s + a) % bs.length) fd fuel = some (bs', t, ins, wd) →
    a + fuel ≤ bs.length →
    (∀ i < a, ∀ b, bs.get? ((s + i) % bs.length) = some b → ¬ stopsFind b k) →
    (∀ d, fd = some d → ∃ i < a, (s + i) % bs.length = d ∧
      (bs.get? d).map Bucket.state = some State.Deleted) →
    (∃ j < bs.length, t = (s + j) % bs.length ∧
        ∀ i < j, ∀ b, bs.get? ((s + i) % bs.length) = some b → ¬ stopsFind b k) ∧
    (ins = true → ∃ J < bs.length,
        (bs.get? ((s + J) % bs.length)).map Bucket.state = some State.Empty ∧
        ∀ i < J, ∀ b, bs.get? ((s + i) % bs.length) = some b → ¬ stopsFind b k) := by
  intro fuel
  induction fuel with
  | zero => intro a fd bs' t ins wd hr; exact absurd hr (by unfold insertLoop; simp)
  | succ fuel ih =>
    intro a fd bs' t ins wd hr hle hpre hfd
    have hidx : (s + a) % bs.length < bs.length := Nat.mod_lt _ (length_pos_of_pow hL)
    have halt : a < bs.length := by omega
    unfold insertLoop at hr
    obtain ⟨b0, hb0⟩ : ∃ b0, bs.get? ((s + a) % bs.length) = some b0 :=
      List.get?_eq_get hidx ▸ ⟨_, rfl⟩
    simp only [hb0] at hr
    cases hst : b0.state with
    | Empty =>
      simp only [hst] at hr
      simp only [Option.some.injEq, Prod.mk.injEq] at hr
      obtain ⟨hbs', ht, hins, hwd⟩ := hr
      subst hbs'
      subst ht
      subst hins
      subst hwd
      constructor
      · cases hfdc : fd with
        | none =>
          subst hfdc
          exact ⟨a, halt, by simp, hpre⟩
        | some d =>
          subst hfdc
          obtain ⟨i0, hi0a, hi0eq, _⟩ := hfd d rfl
          refine ⟨i0, Nat.lt_trans hi0a halt, ?_, fun i hi => hpre i (Nat.lt_trans hi hi0a)⟩
          rw [Option.getD_some]
          exact hi0eq.symm
      · intro _
        exact ⟨a, halt, by rw [map_state_eq hb0, hst], hpre⟩
    | Deleted =>
      simp only [hst] at hr
      rw [step_eq_mod hL] at hr
      have hr' : insertLoop k v bs ((s + (a + 1)) % bs.length)
          (some (fd.getD ((s + a) % bs.length))) fuel = some (bs', t, ins, wd) := hr
      refine ih hr' (by omega) ?_ ?_
      · intro i hi b hb
        rcases Nat.lt_succ_iff_lt_or_eq.mp hi with hi' | hi'
        · exact hpre i hi' b hb
        · subst hi'
          rw [hb0] at hb
          injection hb with hb
          subst hb
          intro hstop
          rcases hstop with hc | hc
          · rw [hst] at hc; simp at hc
          · rw [hst] at hc; simp at hc
      · intro d hd
        cases hfdc : fd with
        | none =>
          subst hfdc
          simp only [Option.getD_none, Option.some.injEq] at hd
          subst hd
          exact ⟨a, by omega, rfl, by rw [map_state_eq hb0, hst]⟩
        | some d0 =>
          subst hfdc
          simp only [Option.getD_some, Option.some.injEq] at hd
          subst hd
          obtain ⟨i0, hi0, heq, hdel⟩ := hfd d0 rfl
          exact ⟨i0, by omega, heq, hdel⟩
    | Filled =>
      simp only [hst] at hr
      by_cases hk : b0.key = k
      · rw [if_pos hk] at hr
        simp only [Option.some.injEq, Prod.mk.injEq] at hr
        obtain ⟨hbs', ht, hins, hwd⟩ := hr
        subst hbs'
        subst ht
        subst hins
        subst hwd
        refine ⟨⟨a, halt, rfl, hpre⟩, ?_⟩
        intro hc
        exact absurd hc (by simp)
      · rw [if_neg hk] at hr
        rw [step_eq_mod hL] at hr
        have hr' : insertLoop k v bs ((s + (a + 1)) % bs.length) fd fuel =
            some (bs', t, ins, wd) := hr
        refine ih hr' (by omega) ?_ ?_
        · intro i hi b hb
          rcases Nat.lt_succ_iff_lt_or_eq.mp hi with hi' | hi'
          · exact hpre i hi' b hb
          · subst hi'
            rw [hb0] at hb
            injection hb with hb
            subst hb
            intro hstop
            rcases hstop with hc | hc
            · rw [hst] at hc; simp at hc
            · exact hk hc.2
        · intro d hd
          obtain ⟨i0, hi0, heq, hdel⟩ := hfd d hd
          exact ⟨i0, by omega, heq, hdel⟩

/-- Round-trip at array level: a completed insertion walk from the key's probe
start yields the array `bs.set t ⟨k, v, Filled⟩` on which `find`'s walk
returns the inserted value. -/
theorem insertLoop_then_find (hL : bs.length = 2 ^ p) {h : Nat → Nat} {v : Nat}
    {bs' : List Bucket} {t : Nat} {ins wd : Bool}
    (hrun : insertLoop k v bs (bucket_index h bs k) none bs.length =
      some (bs', t, ins, wd)) :
    bs' = bs.set t ⟨k, v, State.Filled⟩ ∧ t < bs.length ∧
      findLoop k bs' (bucket_index h bs' k) bs'.length = some (some v) := by
  have hpos := length_pos_of_pow hL
  have hstart : bucket_index h bs k = (h k + 0) % bs.length := by
    rw [bucket_index_eq_mod hL, Nat.add_zero]
  rw [hstart] at hrun
  have hfdnone : ∀ d : Nat, (none : Option Nat) = some d → d < bs.length ∧
      (bs.get? d).map Bucket.state = some State.Deleted := fun d hd => by cases hd
  have hidx0 : (h k + 0) % bs.length < bs.length := Nat.mod_lt _ hpos
  obtain ⟨hbs', ht, _, _, _⟩ := insertLoop_eq hL hrun hfdnone hidx0
  obtain ⟨⟨j, hjL, htj, hpre⟩, _⟩ := insertLoop_trace hL hrun (by omega)
    (fun i hi => absurd hi (Nat.not_lt_zero i))
    (fun d hd => by cases hd)
  have hlen' : bs'.length = bs.length := by rw [hbs', List.length_set]
  have hLp' : bs'.length = 2 ^ p := by rw [hlen', hL]
  refine ⟨hbs', ht, ?_⟩
  rw [bucket_index_eq_mod hLp']
  have hgetT : bs'.get? t = some ⟨k, v, State.Filled⟩ := by
    obtain ⟨bold, hbold⟩ : ∃ bo, bs.get? t = some bo :=
      List.get?_eq_get ht ▸ ⟨_, rfl⟩
    rw [hbs', List.get?_set_eq, hbold]
    rfl
  refine findLoop_found hLp' (j := j) (s := h k) (by omega) ?_ ?_
  · intro i hi b hb
    have hiL : i < bs.length := by omega
    have hneq : (h k + i) % bs.length ≠ t := by
      rw [htj]
      intro hc
      exact absurd (probe_offset_inj hL hiL hjL (h k) hc) (Nat.ne_of_lt hi)
    rw [hlen', hbs', List.get?_set_ne _ _ (fun hc => hneq hc.symm)] at hb
    exact hpre i hi b hb
  · rw [hlen', ← htj]
    exact hgetT

/-- Frame property of the probe walk: overwriting a slot that did not hold the
key `k'` with a `Filled` bucket for a different key `k''` cannot change a
successful `find` walk for `k'`. -/
theorem findLoop_set_frame (hL : bs.length = 2 ^ p) {h : Nat → Nat}
    {k' v' k'' v'' : Nat} {t : Nat} (ht : t < bs.length) (hne : k'' ≠ k')
    (hold : ¬ KeyAt bs t k')
    (hfl : findLoop k' bs (h k' % bs.length) bs.length = some (some v')) :
    findLoop k' (bs.set t ⟨k'', v'', State.Filled⟩)
      (h k' % (bs.set t ⟨k'', v'', State.Filled⟩).length)
      (bs.set t ⟨k'', v'', State.Filled⟩).length = some (some v') := by
  have hpos := length_pos_of_pow hL
  have hidx : h k' % bs.length < bs.length := Nat.mod_lt _ hpos
  obtain ⟨j, hj, hpre, b, hb, _, hbv⟩ := findLoop_some hL hfl hidx
  obtain ⟨hbf, hbk, hbval⟩ := hbv v' rfl
  have hlen2 : (bs.set t ⟨k'', v'', State.Filled⟩).length = bs.length :=
    List.length_set bs t _
  have hL2 : (bs.set t ⟨k'', v'', State.Filled⟩).length = 2 ^ p := by
    rw [hlen2, hL]
  have hjpos : (h k' % bs.length + j) % bs.length = (h k' + j) % bs.length :=
    Nat.mod_add_mod _ _ _
  have hjne : (h k' + j) % bs.length ≠ t := by
    intro hc
    apply hold
    rw [hjpos] at hb
    rw [hc] at hb
    exact ⟨by rw [map_state_eq hb, hbf], by rw [map_key_eq hb, hbk]⟩
  refine findLoop_found hL2 (j := j) (s := h k') (by omega) ?_ ?_
  · intro i hi b' hb'
    rw [hlen2] at hb'
    by_cases hit : (h k' + i) % bs.length = t
    · rw [hit, List.get?_set_eq] at hb'
      obtain ⟨bold, hbold⟩ : ∃ bo, bs.get? t = some bo :=
        List.get?_eq_get ht ▸ ⟨_, rfl⟩
      rw [hbold] at hb'
      simp only [Option.map_some, Option.some.injEq] at hb'
      subst hb'
      intro hstop
      rcases hstop with hc | hc
      · cases hc
      · exact hne hc.2
    · rw [List.get?_set_ne _ _ (fun hc => hit hc.symm)] at hb'
      refine hpre i hi b' ?_
      rw [Nat.mod_add_mod]
      exact hb'
  · rw [hlen2, List.get?_set_ne _ _ (fun hc => hjne hc.symm)]
    rw [hjpos] at hb
    rw [hb]
    have : b = ⟨k', v', State.Filled⟩ := by
      cases b
      simp only [Bucket.mk.injEq]
      exact ⟨hbk, hbval, hbf⟩
    rw [this]

/-- General frame property of the probe walk: overwriting a slot that did
not hold the key `k'` with any bucket that does not stop `k'`'s walk (not
`Empty`, and not `Filled` with key `k'` — so a `Filled` slot for another key
or a tombstone) cannot change a successful `find` walk for `k'`. -/
theorem findLoop_set_frame2 (bnew : Bucket) (hL : bs.length = 2 ^ p)
    {h : Nat → Nat} {k' v' : Nat} {t : Nat} (ht : t < bs.length)
    (hnostop : ¬ stopsFind bnew k')
    (hold : ¬ KeyAt bs t k')
    (hfl : findLoop k' bs (h k' % bs.length) bs.length = some (some v')) :
    findLoop k' (bs.set t bnew) (h k' % (bs.set t bnew).length)
      (bs.set t bnew).length = some (some v') := by
  have hpos := length_pos_of_pow hL
  have hidx : h k' % bs.length < bs.length := Nat.mod_lt _ hpos
  obtain ⟨j, hj, hpre, b, hb, _, hbv⟩ := findLoop_some hL hfl hidx
  obtain ⟨hbf, hbk, hbval⟩ := hbv v' rfl
  have hlen2 : (bs.set t bnew).length = bs.length := List.length_set bs t _
  have hL2 : (bs.set t bnew).length = 2 ^ p := by rw [hlen2, hL]
  have hjpos : (h k' % bs.length + j) % bs.length = (h k' + j) % bs.length :=
    Nat.mod_add_mod _ _ _
  have hjne : (h k' + j) % bs.length ≠ t := by
    intro hc
    apply hold
    rw [hjpos] at hb
    rw [hc] at hb
    exact ⟨by rw [map_state_eq hb, hbf], by rw [map_key_eq hb, hbk]⟩
  refine findLoop_found hL2 (j := j) (s := h k') (by omega) ?_ ?_
  · intro i hi b' hb'
    rw [hlen2] at hb'
    by_cases hit : (h k' + i) % bs.length = t
    · rw [hit, List.get?_set_eq] at hb'
      obtain ⟨bold, hbold⟩ : ∃ bo, bs.get? t = some bo :=
        List.get?_eq_get ht ▸ ⟨_, rfl⟩
      rw [hbold] at hb'
      simp only [Option.map_some, Option.some.injEq] at hb'
      subst hb'
      exact hnostop
    · rw [List.get?_set_ne _ _ (fun hc => hit hc.symm)] at hb'
      refine hpre i hi b' ?_
      rw [Nat.mod_add_mod]
      exact hb'
  · rw [hlen2, List.get?_set_ne _ _ (fun hc => hjne hc.symm)]
    rw [hjpos] at hb
    rw [hb]
    have hbeq : b = ⟨k', v', State.Filled⟩ := by
      cases b
      simp only [Bucket.mk.injEq]
      exact ⟨hbk, hbval, hbf⟩
    rw [hbeq]

/-- If no `Filled` slot holds `k` and some slot is `Empty`, the `find` walk
reports "not found". -/
theorem findLoop_none_of_no_key (hL : bs.length = 2 ^ p) {h : Nat → Nat}
    (hno : ∀ i < bs.length, ¬ KeyAt bs i k)
    (hemp : ∃ e < bs.length, (bs.get? e).map Bucket.state = some State.Empty) :
    findLoop k bs (h k % bs.length) bs.length = some none := by
  have hpos := length_pos_of_pow hL
  obtain ⟨e, heL, hest⟩ := hemp
  have hexj : ∃ j, (bs.get? ((h k + j) % bs.length)).map Bucket.state =
      some State.Empty := by
    refine ⟨e + bs.length - h k % bs.length, ?_⟩
    have hr : h k % bs.length < bs.length := Nat.mod_lt _ hpos
    have hd := Nat.div_add_mod (h k) bs.length
    have h1 : h k + (e + bs.length - h k % bs.length) =
        e + (bs.length * (h k / bs.length) + bs.length) := by omega
    have h2 : e + (bs.length * (h k / bs.length) + bs.length) =
        e + bs.length * (h k / bs.length + 1) := by
      rw [Nat.mul_add, Nat.mul_one]
    rw [h1, h2, Nat.add_mul_mod_self_left, Nat.mod_eq_of_lt heL]
    exact hest
  have hjw := Nat.find_spec hexj
  set jm := Nat.find hexj with hjm
  have hjmin : ∀ i < jm, ¬ (bs.get? ((h k + i) % bs.length)).map Bucket.state =
      some State.Empty := fun i hi => Nat.find_min hexj hi
  have hjlt : jm < bs.length := by
    by_contra hge
    push_neg at hge
    have hj0 : ∃ j0 < bs.length, (h k + j0) % bs.length =
        (h k + jm) % bs.length := by
      exact ⟨jm % bs.length, Nat.mod_lt _ hpos, Nat.add_mod_mod _ _ _⟩
    obtain ⟨j0, hj0L, hj0eq⟩ := hj0
    have : j0 < jm := Nat.lt_of_lt_of_le hj0L hge
    exact hjmin j0 this (hj0eq ▸ hjw)
  refine findLoop_empty hL (j := jm) (s := h k) (by omega) ?_ ?_
  · intro i hi b hb
    intro hstop
    rcases hstop with hc | hc
    · exact hjmin i (by omega) (by rw [map_state_eq hb, hc])
    · have hil : (h k + i) % bs.length < bs.length := Nat.mod_lt _ hpos
      exact hno _ hil ⟨by rw [map_state_eq hb, hc.1], by rw [map_key_eq hb, hc.2]⟩
  · intro b hb
    rw [map_state_eq hb] at hjw
    injection hjw

/-- Backward characterization of a successful `erase` walk: the returned slot
index holds exactly the returned bucket, which is `Filled` with an equal
key. -/
theorem eraseLoop_found_char (hL : bs.length = 2 ^ p) :
    ∀ {fuel idx i : Nat} {b : Bucket},
    eraseLoop k bs idx fuel = some (some (i, b)) → idx < bs.length →
    i < bs.length ∧ bs.get? i = some b ∧ b.state = State.Filled ∧ b.key = k := by
  intro fuel
  induction fuel with
  | zero => intro idx i b hr; exact absurd hr (by unfold eraseLoop; simp)
  | succ fuel ih =>
    intro idx i b hr hidx
    unfold eraseLoop at hr
    obtain ⟨b0, hb0⟩ : ∃ b0, bs.get? idx = some b0 :=
      List.get?_eq_get hidx ▸ ⟨_, rfl⟩
    simp only [hb0] at hr
    by_cases hemp : b0.state = State.Empty
    · rw [if_pos hemp] at hr
      injection hr with hr
      exact Option.noConfusion hr
    · rw [if_neg hemp] at hr
      by_cases hm : b0.state = State.Filled ∧ b0.key = k
      · rw [if_pos hm] at hr
        simp only [Option.some.injEq, Prod.mk.injEq] at hr
        obtain ⟨hi, hb⟩ := hr
        subst hi
        subst hb
        exact ⟨hidx, hb0, hm.1, hm.2⟩
      · rw [if_neg hm] at hr
        have hidx' : (idx + 1) &&& mask bs < bs.length := by
          rw [show (idx + 1) &&& mask bs = (idx + 1) % bs.length from by
            have := step_eq_mod hL (i := idx)
            rwa [Nat.mod_eq_of_lt hidx] at this]
          exact Nat.mod_lt _ (length_pos_of_pow hL)
        exact ih hr hidx'

end WalkLemmas

section MapLemmas

variable {p : Nat} {h : Nat → Nat}

theorem ne_nil_of_pow {m : Map} (hL : m.buckets.length = 2 ^ p) :
    m.buckets.isEmpty = false := by
  cases hmb : m.buckets with
  | nil =>
    rw [hmb] at hL
    simp at hL
    have := Nat.two_pow_pos p
    omega
  | cons a l => rfl

theorem find_eq_findLoop {m : Map} {k : Nat} (hL : m.buckets.length = 2 ^ p) :
    find h m k =
      findLoop k m.buckets (h k % m.buckets.length) m.buckets.length := by
  unfold find
  rw [ne_nil_of_pow hL, bucket_index_eq_mod hL]
  rfl

theorem rehash_if_needed_id {fuel : Nat} {m m1 : Map}
    (hg : ¬ (m.buckets.isEmpty = true ∨ m.max_load_factor < current_load m))
    (hr : rehash_if_needed fuel h m = some m1) : m1 = m := by
  match fuel with
  | 0 => exact absurd hr (by unfold rehash_if_needed; simp)
  | fuel + 1 =>
    unfold rehash_if_needed at hr
    rw [if_neg hg] at hr
    injection hr with hr
    exact hr.symm

/-- Unfolding an `insert_or_assign_impl` run whose growth check does not
fire. -/
theorem impl_no_rehash {fuel : Nat} {m m' : Map} {k v pos : Nat} {ins : Bool}
    (hg : ¬ (m.buckets.isEmpty = true ∨ m.max_load_factor < current_load m))
    (hrun : insert_or_assign_impl fuel h m k v = some (m', pos, ins)) :
    ∃ wd, insertLoop k v m.buckets (bucket_index h m.buckets k) none
        m.buckets.length = some (m'.buckets, pos, ins, wd) ∧
      m'.max_load_factor = m.max_load_factor ∧
      ((ins = true ∧ m'.size = m.size + 1 ∧
          m'.tombstones = if wd then m.tombstones - 1 else m.tombstones) ∨
        (ins = false ∧ m'.size = m.size ∧ m'.tombstones = m.tombstones)) := by
  match fuel with
  | 0 => exact absurd hrun (by unfold insert_or_assign_impl; simp)
  | fuel + 1 =>
    unfold insert_or_assign_impl at hrun
    cases hreh : rehash_if_needed fuel h m with
    | none => rw [hreh] at hrun; exact Option.noConfusion hrun
    | some m1 =>
      have hm1 : m1 = m := rehash_if_needed_id hg hreh
      subst hm1
      simp only [hreh] at hrun
      cases hloop : insertLoop k v m1.buckets (bucket_index h m1.buckets k) none
          m1.buckets.length with
      | none => rw [hloop] at hrun; exact Option.noConfusion hrun
      | some r =>
        obtain ⟨bs2, t2, ins2, wd2⟩ := r
        rw [hloop] at hrun
        cases ins2 with
        | false =>
          simp only [Option.some.injEq, Prod.mk.injEq] at hrun
          obtain ⟨hm', hpos2, hins⟩ := hrun
          subst hm'
          subst hpos2
          subst hins
          exact ⟨wd2, rfl, rfl, Or.inr ⟨rfl, rfl, rfl⟩⟩
        | true =>
          simp only [Option.some.injEq, Prod.mk.injEq] at hrun
          obtain ⟨hm', hpos2, hins⟩ := hrun
          subst hm'
          subst hpos2
          subst hins
          exact ⟨wd2, rfl, rfl, Or.inl ⟨rfl, rfl, rfl⟩⟩

theorem countP_set_eq (pf : Bucket → Bool) (bs : List Bucket) (i : Nat)
    (bnew : Bucket) (hi : i < bs.length) :
    (bs.set i bnew).countP pf + (if pf bs[i] = true then 1 else 0) =
      bs.countP pf + (if pf bnew = true then 1 else 0) := by
  have h1 := List.countP_set pf bs i bnew hi
  have h2 : (if pf bs[i] = true then 1 else 0) ≤ bs.countP pf := by
    by_cases hp : pf bs[i] = true
    · have : 0 < bs.countP pf :=
        List.countP_pos.mpr ⟨bs[i], List.getElem_mem hi, hp⟩
      simp only [hp, if_true]
      omega
    · simp [hp]
  omega

theorem get?_eq_getElem_of_lt {bs : List Bucket} {i : Nat} {b : Bucket}
    (hb : bs.get? i = some b) : ∃ hi : i < bs.length, bs[i] = b := by
  obtain ⟨hi, hget⟩ := List.get?_eq_some.mp hb
  exact ⟨hi, hget⟩

/-- If every slot is `Filled` or `Deleted`, those counts fill the array; so a
strict bound gives an `Empty` slot. -/
theorem exists_empty_slot {bs : List Bucket}
    (hlt : filledCount bs + deletedCount bs < bs.length) :
    ∃ e < bs.length, (bs.get? e).map Bucket.state = some State.Empty := by
  by_contra hc
  push_neg at hc
  have hall : ∀ b ∈ bs, b.state ≠ State.Empty := by
    intro b hbmem hbe
    obtain ⟨n, hn⟩ := List.mem_iff_get?.mp hbmem
    obtain ⟨hnlt, _⟩ := List.get?_eq_some.mp hn
    exact hc n hnlt (by rw [map_state_eq hn, hbe])
  have hsplit : filledCount bs + deletedCount bs = bs.length := by
    clear hlt hc
    induction bs with
    | nil => rfl
    | cons b l ihl =>
      have hb : b.state ≠ State.Empty := hall b (List.mem_cons_self b l)
      have hrest : ∀ b' ∈ l, b'.state ≠ State.Empty :=
        fun b' hb' => hall b' (List.mem_cons_of_mem b hb')
      have ih2 := ihl hrest
      unfold filledCount deletedCount at ih2 ⊢
      rw [List.countP_cons, List.countP_cons]
      cases hst : b.state with
      | Empty => exact absurd hst hb
      | Filled => simp [hst]; omega
      | Deleted => simp [hst]; omega
  omega

end MapLemmas

section Pow2Lemmas

theorem testBit_or_shift (z s i : Nat) :
    (z ||| (z >>> s)).testBit i = (z.testBit i || z.testBit (s + i)) := by
  rw [Nat.testBit_or, Nat.testBit_shiftRight]

/-- One `x |= x >> w` step doubles the look-ahead window of set bits. -/
theorem window_double {y z w : Nat}
    (hz : ∀ j, z.testBit j = true ↔ ∃ d, d < w ∧ y.testBit (j + d) = true)
    {w2 : Nat} (hw : w2 = 2 * w) :
    ∀ j, (z ||| (z >>> w)).testBit j = true ↔
      ∃ d, d < w2 ∧ y.testBit (j + d) = true := by
  intro j
  rw [testBit_or_shift]
  constructor
  · intro hor
    rcases Bool.or_eq_true_iff.mp hor with hb | hb
    · obtain ⟨d, hd, hbit⟩ := (hz j).mp hb
      exact ⟨d, by omega, hbit⟩
    · obtain ⟨d, hd, hbit⟩ := (hz (w + j)).mp hb
      refine ⟨w + d, by omega, ?_⟩
      rw [show j + (w + d) = w + j + d from by omega]
      exact hbit
  · rintro ⟨d, hd, hbit⟩
    by_cases hdw : d < w
    · exact Bool.or_eq_true_iff.mpr (Or.inl ((hz j).mpr ⟨d, hdw, hbit⟩))
    · refine Bool.or_eq_true_iff.mpr (Or.inr ((hz (w + j)).mpr ⟨d - w, by omega, ?_⟩))
      rw [show w + j + (d - w) = j + d from by omega]
      exact hbit

/-- The six smear steps spread every set bit across the 64 positions below
it. -/
theorem smear_testBit (y i : Nat) :
    (smear y).testBit i = true ↔ ∃ d, d < 64 ∧ y.testBit (i + d) = true := by
  have h0 : ∀ j, y.testBit j = true ↔ ∃ d, d < 1 ∧ y.testBit (j + d) = true := by
    intro j
    constructor
    · intro hb
      exact ⟨0, Nat.zero_lt_one, by rwa [Nat.add_zero]⟩
    · rintro ⟨d, hd, hb⟩
      have hd0 : d = 0 := by omega
      subst hd0
      rwa [Nat.add_zero] at hb
  have h1 := window_double h0 (show (2 : Nat) = 2 * 1 from by norm_num)
  have h2 := window_double h1 (show (4 : Nat) = 2 * 2 from by norm_num)
  have h3 := window_double h2 (show (8 : Nat) = 2 * 4 from by norm_num)
  have h4 := window_double h3 (show (16 : Nat) = 2 * 8 from by norm_num)
  have h5 := window_double h4 (show (32 : Nat) = 2 * 16 from by norm_num)
  have h6 := window_double h5 (show (64 : Nat) = 2 * 32 from by norm_num)
  exact h6 i

theorem testBit_log2_self {y : Nat} (hy : 1 ≤ y) :
    y.testBit (Nat.log 2 y) = true := by
  have hy0 : y ≠ 0 := by omega
  have hlo : 2 ^ Nat.log 2 y ≤ y := Nat.pow_log_le_self 2 hy0
  have hhi : y < 2 ^ (Nat.log 2 y + 1) := Nat.lt_pow_succ_log_self (by norm_num) y
  have hdiv : y / 2 ^ Nat.log 2 y = 1 := by
    apply Nat.div_eq_of_lt_le
    · rw [Nat.one_mul]
      exact hlo
    · rw [show (1 + 1) * 2 ^ Nat.log 2 y = 2 ^ (Nat.log 2 y + 1) from by ring]
      exact hhi
  rw [Nat.testBit_to_div_mod, hdiv]
  rfl

/-- For a nonzero 64-bit value, the smear fills every bit at or below the top
set bit. -/
theorem smear_eq_pow_sub_one {y : Nat} (hy1 : 1 ≤ y) (hy : y < 2 ^ 64) :
    smear y = 2 ^ (Nat.log 2 y + 1) - 1 := by
  have hlog63 : Nat.log 2 y ≤ 63 := by
    have := Nat.log_lt_of_lt_pow (by omega : y ≠ 0) hy
    omega
  apply Nat.eq_of_testBit_eq
  intro i
  rw [Nat.testBit_two_pow_sub_one]
  by_cases hi : i < Nat.log 2 y + 1
  · have hb : (smear y).testBit i = true := by
      refine (smear_testBit y i).mpr ⟨Nat.log 2 y - i, by omega, ?_⟩
      rw [show i + (Nat.log 2 y - i) = Nat.log 2 y from by omega]
      exact testBit_log2_self hy1
    rw [hb]
    exact (decide_eq_true hi).symm
  · have hb : (smear y).testBit i = false := by
      cases hsb : (smear y).testBit i with
      | false => rfl
      | true =>
        obtain ⟨d, hd, hbit⟩ := (smear_testBit y i).mp hsb
        have hylt : y < 2 ^ (i + d) := by
          calc y < 2 ^ (Nat.log 2 y + 1) := Nat.lt_pow_succ_log_self (by norm_num) y
          _ ≤ 2 ^ (i + d) := Nat.pow_le_pow_right (by norm_num) (by omega)
        rw [Nat.testBit_lt_two_pow hylt] at hbit
        simp at hbit
    rw [hb]
    exact (decide_eq_false hi).symm

/-- `next_pow2` on arguments in `[2, 2^63]`: one more than the filled smear,
i.e. the power of two one above the top bit of `x - 1`. -/
theorem next_pow2_eq {x : Nat} (hx2 : 2 ≤ x) (hx : x ≤ 2 ^ 63) :
    next_pow2 x = 2 ^ (Nat.log 2 (x - 1) + 1) := by
  have h64 : (2 : Nat) ^ 63 < 2 ^ 64 := by norm_num
  have hxlt : x < 2 ^ 64 := by omega
  have hxmod : x % 2 ^ 64 = x := Nat.mod_eq_of_lt hxlt
  unfold next_pow2
  rw [hxmod, if_neg (by omega)]
  have hy1 : 1 ≤ x - 1 := by omega
  have hsm := smear_eq_pow_sub_one hy1 (by omega)
  rw [hsm]
  have hlog : Nat.log 2 (x - 1) ≤ 62 := by
    have hxp : x - 1 < 2 ^ 63 := by omega
    have := Nat.log_lt_of_lt_pow (by omega : x - 1 ≠ 0) hxp
    omega
  have hplt : 2 ^ (Nat.log 2 (x - 1) + 1) < 2 ^ 64 :=
    Nat.pow_lt_pow_right (by norm_num) (by omega)
  have hppos : 1 ≤ 2 ^ (Nat.log 2 (x - 1) + 1) := Nat.one_le_two_pow
  rw [Nat.sub_add_cancel hppos, Nat.mod_eq_of_lt hplt]

theorem next_pow2_small {x : Nat} (hx2 : x < 2) : next_pow2 x = 2 := by
  have h2 : (2 : Nat) < 2 ^ 64 := by norm_num
  unfold next_pow2
  rw [Nat.mod_eq_of_lt (by omega), if_pos hx2]

/-- `next_pow2 x` is at least `x` on the 64-bit-representable range the C++
code is defined on. -/
theorem next_pow2_ge {x : Nat} (hx : x ≤ 2 ^ 63) : x ≤ next_pow2 x := by
  by_cases hx2 : x < 2
  · rw [next_pow2_small hx2]
    omega
  · push_neg at hx2
    rw [next_pow2_eq hx2 hx]
    have := Nat.lt_pow_succ_log_self (b := 2) (by norm_num) (x - 1)
    omega

/-- `next_pow2 x` is a power of two (with exponent at least 1) on `[0, 2^63]`. -/
theorem next_pow2_pow {x : Nat} (hx : x ≤ 2 ^ 63) :
    ∃ q, 1 ≤ q ∧ next_pow2 x = 2 ^ q := by
  by_cases hx2 : x < 2
  · exact ⟨1, Nat.le_refl 1, by rw [next_pow2_small hx2]; norm_num⟩
  · push_neg at hx2
    exact ⟨_, by omega, next_pow2_eq hx2 hx⟩

/-- Minimality: `next_pow2 x` does not overshoot a power of two that already
accommodates `x`. -/
theorem next_pow2_le_pow {x j : Nat} (hx2 : 2 ≤ x) (hx : x ≤ 2 ^ 63)
    (hj : x ≤ 2 ^ j) : next_pow2 x ≤ 2 ^ j := by
  rw [next_pow2_eq hx2 hx]
  apply Nat.pow_le_pow_right (by norm_num)
  have hxp : x - 1 < 2 ^ j := by omega
  have := Nat.log_lt_of_lt_pow (by omega : x - 1 ≠ 0) hxp
  omega

/-- A power of two in the representable range is a fixed point of
`next_pow2`. -/
theorem next_pow2_self_pow {q : Nat} (hq : 1 ≤ q) (hq63 : q ≤ 63) :
    next_pow2 (2 ^ q) = 2 ^ q := by
  have hx2 : 2 ≤ 2 ^ q := by
    calc (2 : Nat) = 2 ^ 1 := rfl
    _ ≤ 2 ^ q := Nat.pow_le_pow_right (by norm_num) hq
  have hx : 2 ^ q ≤ 2 ^ 63 := Nat.pow_le_pow_right (by norm_num) hq63
  rw [next_pow2_eq hx2 hx]
  congr 1
  have h1 : 2 ^ (q - 1) < 2 ^ q := Nat.pow_lt_pow_right (by norm_num) (by omega)
  have hlog : Nat.log 2 (2 ^ q - 1) = q - 1 := by
    apply Nat.log_eq_of_pow_le_of_lt_pow
    · omega
    · rw [show q - 1 + 1 = q from by omega]
      omega
  rw [hlog]
  omega

/-- The value `rehash` actually uses, `next_pow2` clamped below at 2, is a
power of two `2 ^ q` with `q ≥ 1` for every argument (including the wrap-around
case where the 64-bit `+ 1` overflows to zero). -/
theorem next_pow2_clamped_pow (x : Nat) :
    ∃ q, 1 ≤ q ∧ (if next_pow2 x < 2 then 2 else next_pow2 x) = 2 ^ q := by
  by_cases hx2 : x % 2 ^ 64 < 2
  · have hnp : next_pow2 x = 2 := by
      unfold next_pow2
      rw [if_pos hx2]
    exact ⟨1, Nat.le_refl 1, by rw [hnp]; norm_num⟩
  · push_neg at hx2
    have hnp : next_pow2 x = (smear (x % 2 ^ 64 - 1) + 1) % 2 ^ 64 := by
      unfold next_pow2
      rw [if_neg (by omega)]
    have hy1 : 1 ≤ x % 2 ^ 64 - 1 := by omega
    have hylt : x % 2 ^ 64 - 1 < 2 ^ 64 := by
      have hm : x % 2 ^ 64 < 2 ^ 64 := Nat.mod_lt _ (by norm_num)
      omega
    have hsm := smear_eq_pow_sub_one hy1 hylt
    have hlog : Nat.log 2 (x % 2 ^ 64 - 1) ≤ 63 := by
      have := Nat.log_lt_of_lt_pow (by omega : x % 2 ^ 64 - 1 ≠ 0) hylt
      omega
    by_cases h63 : Nat.log 2 (x % 2 ^ 64 - 1) = 63
    · have hnp0 : next_pow2 x = 0 := by
        rw [hnp, hsm, h63]
        norm_num
      exact ⟨1, Nat.le_refl 1, by rw [hnp0]; norm_num⟩
    · have hlt : 2 ^ (Nat.log 2 (x % 2 ^ 64 - 1) + 1) < 2 ^ 64 :=
        Nat.pow_lt_pow_right (by norm_num) (by omega)
      have hppos : 1 ≤ 2 ^ (Nat.log 2 (x % 2 ^ 64 - 1) + 1) := Nat.one_le_two_pow
      have hge2 : 2 ≤ 2 ^ (Nat.log 2 (x % 2 ^ 64 - 1) + 1) := by
        calc (2 : Nat) = 2 ^ 1 := rfl
        _ ≤ _ := Nat.pow_le_pow_right (by norm_num) (by omega)
      have hnpv : next_pow2 x = 2 ^ (Nat.log 2 (x % 2 ^ 64 - 1) + 1) := by
        rw [hnp, hsm, Nat.sub_add_cancel hppos, Nat.mod_eq_of_lt hlt]
      refine ⟨Nat.log 2 (x % 2 ^ 64 - 1) + 1, by omega, ?_⟩
      rw [hnpv, if_neg (by omega)]

end Pow2Lemmas

section PackLemmas

theorem insertLoop_nil {k v : Nat} : ∀ (fuel idx : Nat) (fd : Option Nat),
    insertLoop k v [] idx fd fuel = none := by
  intro fuel idx fd
  cases fuel with
  | zero => rfl
  | succ fuel => rfl

theorem insertLoop_length {k v : Nat} {bs : List Bucket} :
    ∀ {fuel idx : Nat} {fd : Option Nat} {bs' : List Bucket} {t : Nat}
      {ins wd : Bool},
    insertLoop k v bs idx fd fuel = some (bs', t, ins, wd) →
    bs'.length = bs.length := by
  intro fuel
  induction fuel with
  | zero => intro idx fd bs' t ins wd hr; exact absurd hr (by unfold insertLoop; simp)
  | succ fuel ih =>
    intro idx fd bs' t ins wd hr
    unfold insertLoop at hr
    cases hb0 : bs.get? idx with
    | none => rw [hb0] at hr; exact Option.noConfusion hr
    | some b0 =>
      simp only [hb0] at hr
      cases hst : b0.state with
      | Empty =>
        simp only [hst] at hr
        simp only [Option.some.injEq, Prod.mk.injEq] at hr
        obtain ⟨hbs', _, _, _⟩ := hr
        rw [← hbs', List.length_set]
      | Deleted =>
        simp only [hst] at hr
        exact ih hr
      | Filled =>
        simp only [hst] at hr
        by_cases hk : b0.key = k
        · rw [if_pos hk] at hr
          simp only [Option.some.injEq, Prod.mk.injEq] at hr
          obtain ⟨hbs', _, _, _⟩ := hr
          rw [← hbs', List.length_set]
        · rw [if_neg hk] at hr
          exact ih hr

theorem countP_set_eq2 (pf : Bucket → Bool) {bs : List Bucket} {i : Nat}
    {b : Bucket} (hb : bs.get? i = some b) (bnew : Bucket) :
    (bs.set i bnew).countP pf + (if pf b = true then 1 else 0) =
      bs.countP pf + (if pf bnew = true then 1 else 0) := by
  obtain ⟨hi, hget⟩ := get?_eq_getElem_of_lt hb
  have hc := countP_set_eq pf bs i bnew hi
  rw [hget] at hc
  exact hc

theorem deletedCount_replicate_empty (n : Nat) :
    deletedCount (List.replicate n emptyBucket) = 0 := by
  unfold deletedCount
  rw [List.countP_eq_zero]
  intro b hb
  rw [List.eq_of_mem_replicate hb]
  simp [emptyBucket]

theorem filledCount_replicate_empty (n : Nat) :
    filledCount (List.replicate n emptyBucket) = 0 := by
  unfold filledCount
  rw [List.countP_eq_zero]
  intro b hb
  rw [List.eq_of_mem_replicate hb]
  simp [emptyBucket]

/-- Fuel induction over the mutually recursive insert/rehash family: the
`max_load_factor_` field is preserved, storage lengths stay nontrivial powers
of two, the `tombstones_` counter stays an accurate count of the `Deleted`
slots, any rehash resets both to zero, and the bound
`tombstones ≤ bucket_count / 2` is preserved. -/
theorem fuel_pack : ∀ fuel : Nat,
    (∀ (h : Nat → Nat) (m : Map) (k v : Nat) (m' : Map) (pos : Nat) (ins : Bool),
      insert_or_assign_impl fuel h m k v = some (m', pos, ins) →
        m'.max_load_factor = m.max_load_factor ∧
        (LenOk m → LenPow m') ∧
        (LenOk m → deletedCount m.buckets = m.tombstones →
          deletedCount m'.buckets = m'.tombstones) ∧
        (LenOk m → m.tombstones = 0 ∧ deletedCount m.buckets = 0 →
          m'.tombstones = 0 ∧ deletedCount m'.buckets = 0) ∧
        (m.tombstones ≤ m.buckets.length / 2 →
          m'.tombstones ≤ m'.buckets.length / 2)) ∧
    (∀ (h : Nat → Nat) (m m' : Map),
      rehash_if_needed fuel h m = some m' →
        m'.max_load_factor = m.max_load_factor ∧
        (LenOk m → m' = m ∨ LenPow m') ∧
        (LenOk m → deletedCount m.buckets = m.tombstones →
          deletedCount m'.buckets = m'.tombstones) ∧
        (LenOk m → m.tombstones = 0 ∧ deletedCount m.buckets = 0 →
          m'.tombstones = 0 ∧ deletedCount m'.buckets = 0) ∧
        (m.tombstones ≤ m.buckets.length / 2 →
          m'.tombstones ≤ m'.buckets.length / 2)) ∧
    (∀ (h : Nat → Nat) (m : Map) (n : Nat) (m' : Map),
      rehash fuel h m n = some m' →
        m'.max_load_factor = m.max_load_factor ∧
        LenPow m' ∧ m'.tombstones = 0 ∧ deletedCount m'.buckets = 0) ∧
    (∀ (h : Nat → Nat) (old : List Bucket) (m m' : Map),
      reinsertAll fuel h old m = some m' →
        m'.max_load_factor = m.max_load_factor ∧
        (LenPow m → LenPow m') ∧
        (LenPow m → deletedCount m.buckets = m.tombstones →
          deletedCount m'.buckets = m'.tombstones) ∧
        (LenPow m → m.tombstones = 0 ∧ deletedCount m.buckets = 0 →
          m'.tombstones = 0 ∧ deletedCount m'.buckets = 0)) := by
  intro fuel
  induction fuel with
  | zero =>
    refine ⟨?_, ?_, ?_, ?_⟩
    · intro h m k v m' pos ins hr
      exact absurd hr (by unfold insert_or_assign_impl; simp)
    · intro h m m' hr
      exact absurd hr (by unfold rehash_if_needed; simp)
    · intro h m n m' hr
      exact absurd hr (by unfold rehash; simp)
    · intro h old m m' hr
      exact absurd hr (by unfold reinsertAll; simp)
  | succ fuel ih =>
    obtain ⟨ihIns, ihRifn, ihReh, ihRin⟩ := ih
    refine ⟨?_, ?_, ?_, ?_⟩
    · -- insert_or_assign_impl
      intro h m k v m' pos ins hrun
      unfold insert_or_assign_impl at hrun
      cases hreh : rehash_if_needed fuel h m with
      | none => rw [hreh] at hrun; exact Option.noConfusion hrun
      | some m1 =>
        simp only [hreh] at hrun
        obtain ⟨hQ1, hQ2, hQ3, hQ4, hQ5⟩ := ihRifn h m m1 hreh
        cases hloop : insertLoop k v m1.buckets (bucket_index h m1.buckets k)
            none m1.buckets.length with
        | none => rw [hloop] at hrun; exact Option.noConfusion hrun
        | some r =>
          obtain ⟨bs2, t2, ins2, wd2⟩ := r
          rw [hloop] at hrun
          have hlen2 : bs2.length = m1.buckets.length := insertLoop_length hloop
          have hm1nonnil : m1.buckets ≠ [] := by
            intro hc
            rw [hc, insertLoop_nil] at hloop
            exact Option.noConfusion hloop
          have hLP1 : LenOk m → LenPow m1 := by
            intro hok
            rcases hQ2 hok with heq | hlp
            · rcases hok with hnil | hlp2
              · exact absurd (by rw [heq]; exact hnil) hm1nonnil
              · rw [heq]
                exact hlp2
            · exact hlp
          have hfdnone : ∀ d : Nat, (none : Option Nat) = some d →
              d < m1.buckets.length ∧
              (m1.buckets.get? d).map Bucket.state = some State.Deleted :=
            fun d hd => by cases hd
          cases ins2 with
          | true =>
            simp only [Option.some.injEq, Prod.mk.injEq] at hrun
            obtain ⟨hm', hpos, hins⟩ := hrun
            have hbuck : m'.buckets = bs2 := by rw [← hm']
            have htomb : m'.tombstones =
                if wd2 = true then m1.tombstones - 1 else m1.tombstones := by
              rw [← hm']
            have hmlf : m'.max_load_factor = m1.max_load_factor := by rw [← hm']
            have hlen' : m'.buckets.length = m1.buckets.length := by
              rw [hbuck, hlen2]
            have htomb_le : m'.tombstones ≤ m1.tombstones := by
              rw [htomb]
              cases wd2
              · simp
              · simp
            refine ⟨by rw [hmlf, hQ1], ?_, ?_, ?_, ?_⟩
            · intro hok
              obtain ⟨q, hq, hLq⟩ := hLP1 hok
              exact ⟨q, hq, by rw [hlen', hLq]⟩
            · intro hok hacc
              obtain ⟨q, hq, hLq⟩ := hLP1 hok
              have hacc1 : deletedCount m1.buckets = m1.tombstones :=
                hQ3 hok hacc
              have hidx : bucket_index h m1.buckets k < m1.buckets.length := by
                rw [bucket_index_eq_mod hLq]
                exact Nat.mod_lt _ (by rw [hLq]; exact Nat.two_pow_pos q)
              obtain ⟨hbs2, ht2, hwdel, _, _⟩ :=
                insertLoop_eq hLq hloop hfdnone hidx
              obtain ⟨bold, hbold⟩ : ∃ bo, m1.buckets.get? t2 = some bo :=
                List.get?_eq_get ht2 ▸ ⟨_, rfl⟩
              have hcnt := countP_set_eq2 (fun b => b.state == State.Deleted)
                hbold ⟨k, v, State.Filled⟩
              rw [hbuck, hbs2]
              unfold deletedCount at hacc1 ⊢
              cases hwd2 : wd2 with
              | true =>
                rw [hwd2] at hwdel htomb
                have hdel : bold.state = State.Deleted := by
                  have := hwdel.mp rfl
                  rw [map_state_eq hbold] at this
                  injection this
                have htomb2 : m'.tombstones = m1.tombstones - 1 := by
                  rw [htomb]
                  simp
                have hif1 : (if (bold.state == State.Deleted) = true then 1 else 0) = 1 := by
                  rw [hdel]
                  rfl
                have hif2 :
                    (if ((⟨k, v, State.Filled⟩ : Bucket).state == State.Deleted) = true
                      then 1 else 0) = 0 := rfl
                rw [hif1, hif2] at hcnt
                rw [htomb2]
                omega
              | false =>
                rw [hwd2] at hwdel htomb
                have hnd : bold.state ≠ State.Deleted := by
                  intro hc
                  have : (m1.buckets.get? t2).map Bucket.state =
                      some State.Deleted := by rw [map_state_eq hbold, hc]
                  have := hwdel.mpr this
                  exact Bool.noConfusion this
                have hif1 : (if (bold.state == State.Deleted) = true then 1 else 0) = 0 := by
                  rw [if_neg]
                  intro hc
                  exact hnd (by exact beq_iff_eq.mp hc)
                have hif2 :
                    (if ((⟨k, v, State.Filled⟩ : Bucket).state == State.Deleted) = true
                      then 1 else 0) = 0 := rfl
                rw [hif1, hif2] at hcnt
                have htomb2 : m'.tombstones = m1.tombstones := by
                  rw [htomb]
                  simp
                rw [htomb2]
                omega
            · intro hok hz
              obtain ⟨q, hq, hLq⟩ := hLP1 hok
              obtain ⟨hz1, hz2⟩ := hQ4 hok hz
              have hidx : bucket_index h m1.buckets k < m1.buckets.length := by
                rw [bucket_index_eq_mod hLq]
                exact Nat.mod_lt _ (by rw [hLq]; exact Nat.two_pow_pos q)
              obtain ⟨hbs2, ht2, _, _, _⟩ :=
                insertLoop_eq hLq hloop hfdnone hidx
              obtain ⟨bold, hbold⟩ : ∃ bo, m1.buckets.get? t2 = some bo :=
                List.get?_eq_get ht2 ▸ ⟨_, rfl⟩
              have hcnt := countP_set_eq2 (fun b => b.state == State.Deleted)
                hbold ⟨k, v, State.Filled⟩
              have hif2 :
                  (if ((⟨k, v, State.Filled⟩ : Bucket).state == State.Deleted) = true
                    then 1 else 0) = 0 := rfl
              rw [hif2] at hcnt
              unfold deletedCount at hz2
              constructor
              · rw [htomb, hz1]
                cases wd2
                · simp
                · simp
              · rw [hbuck, hbs2]
                unfold deletedCount
                omega
            · intro hhalf
              have h1 := hQ5 hhalf
              rw [hlen']
              omega
          | false =>
            simp only [Option.some.injEq, Prod.mk.injEq] at hrun
            obtain ⟨hm', hpos, hins⟩ := hrun
            have hbuck : m'.buckets = bs2 := by rw [← hm']
            have htomb : m'.tombstones = m1.tombstones := by rw [← hm']
            have hmlf : m'.max_load_factor = m1.max_load_factor := by rw [← hm']
            have hlen' : m'.buckets.length = m1.buckets.length := by
              rw [hbuck, hlen2]
            refine ⟨by rw [hmlf, hQ1], ?_, ?_, ?_, ?_⟩
            · intro hok
              obtain ⟨q, hq, hLq⟩ := hLP1 hok
              exact ⟨q, hq, by rw [hlen', hLq]⟩
            · intro hok hacc
              obtain ⟨q, hq, hLq⟩ := hLP1 hok
              have hacc1 : deletedCount m1.buckets = m1.tombstones :=
                hQ3 hok hacc
              have hidx : bucket_index h m1.buckets k < m1.buckets.length := by
                rw [bucket_index_eq_mod hLq]
                exact Nat.mod_lt _ (by rw [hLq]; exact Nat.two_pow_pos q)
              obtain ⟨hbs2, ht2, _, hKA, _⟩ :=
                insertLoop_eq hLq hloop hfdnone hidx
              obtain ⟨hKA1, _⟩ := hKA rfl
              obtain ⟨bold, hbold⟩ : ∃ bo, m1.buckets.get? t2 = some bo :=
                List.get?_eq_get ht2 ▸ ⟨_, rfl⟩
              have hboldF : bold.state = State.Filled := by
                rw [map_state_eq hbold] at hKA1
                injection hKA1
              have hcnt := countP_set_eq2 (fun b => b.state == State.Deleted)
                hbold ⟨k, v, State.Filled⟩
              have hif1 : (if (bold.state == State.Deleted) = true then 1 else 0) = 0 := by
                rw [hboldF]
                rfl
              have hif2 :
                  (if ((⟨k, v, State.Filled⟩ : Bucket).state == State.Deleted) = true
                    then 1 else 0) = 0 := rfl
              rw [hif1, hif2] at hcnt
              rw [hbuck, hbs2, htomb]
              unfold deletedCount at hacc1 ⊢
              omega
            · intro hok hz
              obtain ⟨hz1, hz2⟩ := hQ4 hok hz
              refine ⟨by rw [htomb, hz1], ?_⟩
              obtain ⟨q, hq, hLq⟩ := hLP1 hok
              have hidx : bucket_index h m1.buckets k < m1.buckets.length := by
                rw [bucket_index_eq_mod hLq]
                exact Nat.mod_lt _ (by rw [hLq]; exact Nat.two_pow_pos q)
              obtain ⟨hbs2, ht2, _, _, _⟩ :=
                insertLoop_eq hLq hloop hfdnone hidx
              obtain ⟨bold, hbold⟩ : ∃ bo, m1.buckets.get? t2 = some bo :=
                List.get?_eq_get ht2 ▸ ⟨_, rfl⟩
              have hcnt := countP_set_eq2 (fun b => b.state == State.Deleted)
                hbold ⟨k, v, State.Filled⟩
              have hif2 :
                  (if ((⟨k, v, State.Filled⟩ : Bucket).state == State.Deleted) = true
                    then 1 else 0) = 0 := rfl
              rw [hif2] at hcnt
              unfold deletedCount at hz2
              rw [hbuck, hbs2]
              unfold deletedCount
              omega
            · intro hhalf
              have h1 := hQ5 hhalf
              rw [hlen', htomb]
              omega
    · -- rehash_if_needed
      intro h m m' hrun
      unfold rehash_if_needed at hrun
      by_cases hg : m.buckets.isEmpty = true ∨ m.max_load_factor < current_load m
      · rw [if_pos hg] at hrun
        obtain ⟨hR1, hR2, hR3, hR4⟩ := ihReh h m _ m' hrun
        exact ⟨hR1, fun _ => Or.inr hR2, fun _ _ => by rw [hR4, hR3],
          fun _ _ => ⟨hR3, hR4⟩, fun _ => by rw [hR3]; omega⟩
      · rw [if_neg hg] at hrun
        injection hrun with hrun
        subst hrun
        exact ⟨rfl, fun _ => Or.inl rfl, fun _ ha => ha, fun _ hz => hz,
          fun hh => hh⟩
    · -- rehash
      intro h m n m' hrun
      have hrun' : reinsertAll fuel h m.buckets
          { m with
            buckets := List.replicate
              (if next_pow2 n < 2 then 2 else next_pow2 n) emptyBucket
            size := 0
            tombstones := 0 } = some m' := hrun
      obtain ⟨hT1, hT2, hT3, hT4⟩ := ihRin h m.buckets _ m' hrun'
      obtain ⟨q, hq, hclamp⟩ := next_pow2_clamped_pow n
      have hfr : LenPow { m with
          buckets := List.replicate
            (if next_pow2 n < 2 then 2 else next_pow2 n) emptyBucket
          size := 0
          tombstones := 0 } := by
        refine ⟨q, hq, ?_⟩
        rw [show ({ m with
            buckets := List.replicate
              (if next_pow2 n < 2 then 2 else next_pow2 n) emptyBucket
            size := 0
            tombstones := 0 } : Map).buckets = List.replicate
              (if next_pow2 n < 2 then 2 else next_pow2 n) emptyBucket from rfl]
        rw [List.length_replicate, hclamp]
      have hzero := hT4 hfr ⟨rfl, deletedCount_replicate_empty _⟩
      exact ⟨hT1, hT2 hfr, hzero.1, hzero.2⟩
    · -- reinsertAll
      intro h old m m' hrun
      cases old with
      | nil =>
        unfold reinsertAll at hrun
        injection hrun with hrun
        subst hrun
        exact ⟨rfl, fun hp => hp, fun _ ha => ha, fun _ hz => hz⟩
      | cons b rest =>
        unfold reinsertAll at hrun
        simp only [] at hrun
        by_cases hbf : b.state = State.Filled
        · rw [if_pos hbf] at hrun
          cases hins : insert_or_assign_impl fuel h m b.key b.value with
          | none => rw [hins] at hrun; exact Option.noConfusion hrun
          | some r =>
            obtain ⟨m1, pos1, ins1⟩ := r
            simp only [hins] at hrun
            obtain ⟨hI1, hI2, hI3, hI4, _⟩ := ihIns h m b.key b.value m1 pos1 ins1 hins
            obtain ⟨hT1, hT2, hT3, hT4⟩ := ihRin h rest m1 m' hrun
            refine ⟨by rw [hT1, hI1], ?_, ?_, ?_⟩
            · intro hLP
              exact hT2 (hI2 (Or.inr hLP))
            · intro hLP hacc
              exact hT3 (hI2 (Or.inr hLP)) (hI3 (Or.inr hLP) hacc)
            · intro hLP hz
              exact hT4 (hI2 (Or.inr hLP)) (hI4 (Or.inr hLP) hz)
        · rw [if_neg hbf] at hrun
          exact ihRin h rest m m' hrun

end PackLemmas

section ReinsertLemmas

theorem filledKeys_cons_filled {b : Bucket} {rest : List Bucket}
    (hb : b.state = State.Filled) :
    filledKeys (b :: rest) = b.key :: filledKeys rest := by
  unfold filledKeys
  rw [List.filterMap_cons]
  simp [hb]

theorem filledKeys_cons_not {b : Bucket} {rest : List Bucket}
    (hb : ¬ b.state = State.Filled) :
    filledKeys (b :: rest) = filledKeys rest := by
  unfold filledKeys
  rw [List.filterMap_cons]
  simp [hb]

theorem no_deleted_slot {bs : List Bucket} (hd0 : deletedCount bs = 0)
    {i : Nat} {b : Bucket} (hb : bs.get? i = some b) :
    b.state ≠ State.Deleted := by
  intro hc
  have hmem : b ∈ bs := by
    obtain ⟨hi, hget⟩ := List.get?_eq_some.mp hb
    exact hget ▸ List.get_mem bs i hi
  unfold deletedCount at hd0
  have := List.countP_eq_zero.mp hd0 b hmem
  rw [hc] at this
  simp at this

theorem HasKey_set_elim {bs : List Bucket} {t : Nat} {bnew : Bucket} {k' : Nat}
    (hk : HasKey (bs.set t bnew) k') :
    HasKey bs k' ∨ (bnew.key = k' ∧ bnew.state = State.Filled) := by
  obtain ⟨i, hiL, hKA⟩ := hk
  rw [List.length_set] at hiL
  obtain ⟨hst, hkey⟩ := hKA
  by_cases hit : t = i
  · subst hit
    rw [List.get?_set_eq] at hst hkey
    obtain ⟨bo, hbo⟩ : ∃ bo, bs.get? t = some bo :=
      List.get?_eq_get hiL ▸ ⟨_, rfl⟩
    rw [hbo] at hst hkey
    simp at hst hkey
    exact Or.inr ⟨hkey, hst⟩
  · rw [List.get?_set_ne _ _ hit] at hst hkey
    exact Or.inl ⟨i, hiL, hst, hkey⟩

theorem HasPair_set_preserve {bs : List Bucket} {t : Nat} {bnew : Bucket}
    (hnf : (bs.get? t).map Bucket.state ≠ some State.Filled) {k' v' : Nat}
    (hp : HasPair bs k' v') : HasPair (bs.set t bnew) k' v' := by
  obtain ⟨i, hiL, hFA⟩ := hp
  have hne : t ≠ i := by
    intro hc
    subst hc
    rw [show (bs.get? t).map Bucket.state = some State.Filled from by
      rw [hFA]; rfl] at hnf
    exact hnf rfl
  refine ⟨i, by rwa [List.length_set], ?_⟩
  unfold FilledAt at hFA ⊢
  rwa [List.get?_set_ne _ _ hne]

theorem KeyAt_of_FilledAt {bs : List Bucket} {i k v : Nat}
    (hFA : FilledAt bs i k v) : KeyAt bs i k := by
  unfold FilledAt at hFA
  exact ⟨by rw [hFA]; rfl, by rw [hFA]; rfl⟩

/-- The reinsertion loop of `rehash`, run on a fresh tombstone-free table
large enough that no nested growth triggers: it keeps the length and the
`max_load_factor`, keeps the table tombstone-free, adds exactly the `Filled`
entries of the old array to the size, makes every reinserted pair and every
already-present pair findable, and introduces no key that was not inserted. -/
theorem reinsertAll_good {h : Nat → Nat} {p : Nat} :
    ∀ (rest : List Bucket) {fuel : Nat} {m m' : Map},
    reinsertAll fuel h rest m = some m' →
    m.buckets.length = 2 ^ p →
    m.tombstones = 0 →
    deletedCount m.buckets = 0 →
    m.size = filledCount m.buckets →
    ((m.size + (filledKeys rest).length : Nat) : ℚ) ≤
      m.max_load_factor * (m.buckets.length : ℚ) →
    (filledKeys rest).Nodup →
    (∀ k', k' ∈ filledKeys rest → ¬ HasKey m.buckets k') →
    (∀ k' v', HasPair m.buckets k' v' → find h m k' = some (some v')) →
    m'.buckets.length = m.buckets.length ∧
    m'.tombstones = 0 ∧
    deletedCount m'.buckets = 0 ∧
    m'.size = m.size + (filledKeys rest).length ∧
    m'.size = filledCount m'.buckets ∧
    m'.max_load_factor = m.max_load_factor ∧
    (∀ k' v', HasPair m.buckets k' v' → find h m' k' = some (some v')) ∧
    (∀ b2 ∈ rest, b2.state = State.Filled →
      find h m' b2.key = some (some b2.value)) ∧
    (∀ k0, ¬ HasKey m.buckets k0 → k0 ∉ filledKeys rest →
      ¬ HasKey m'.buckets k0) := by
  intro rest
  induction rest with
  | nil =>
    intro fuel m m' hrun hL ht0 hd0 hsz _ _ _ hfind
    cases fuel with
    | zero => exact absurd hrun (by unfold reinsertAll; simp)
    | succ fuel =>
      unfold reinsertAll at hrun
      injection hrun with hrun
      subst hrun
      refine ⟨rfl, ht0, hd0, by simp [filledKeys], hsz, rfl, hfind, ?_, ?_⟩
      · intro b2 hb2
        exact absurd hb2 (List.not_mem_nil b2)
      · intro k0 hk0 _ hc
        exact hk0 hc
  | cons b rest ih =>
    intro fuel m m' hrun hL ht0 hd0 hsz hbudget hnodup hdisj hfind
    cases fuel with
    | zero => exact absurd hrun (by unfold reinsertAll; simp)
    | succ fuel =>
      unfold reinsertAll at hrun
      simp only [] at hrun
      have hpos : 0 < m.buckets.length := length_pos_of_pow hL
      by_cases hbf : b.state = State.Filled
      · rw [if_pos hbf] at hrun
        rw [filledKeys_cons_filled hbf] at hbudget hnodup hdisj ⊢
        cases hins : insert_or_assign_impl fuel h m b.key b.value with
        | none => rw [hins] at hrun; exact Option.noConfusion hrun
        | some r =>
          obtain ⟨m1, pos1, ins1⟩ := r
          simp only [hins] at hrun
          have hload : current_load m = (m.size : ℚ) / (m.buckets.length : ℚ) := by
            unfold current_load
            rw [ht0]
            norm_num
          have hQpos : (0 : ℚ) < (m.buckets.length : ℚ) := by exact_mod_cast hpos
          have hsize_le : (m.size : ℚ) ≤
              m.max_load_factor * (m.buckets.length : ℚ) := by
            have hle : ((m.size : Nat) : ℚ) ≤
                ((m.size + (b.key :: filledKeys rest).length : Nat) : ℚ) := by
              push_cast
              have hnn : (0 : ℚ) ≤ ((b.key :: filledKeys rest).length : ℚ) := by
                positivity
              linarith
            exact le_trans hle hbudget
          have hg : ¬ (m.buckets.isEmpty = true ∨
              m.max_load_factor < current_load m) := by
            push_neg
            constructor
            · rw [ne_nil_of_pow hL]
              simp
            · rw [hload, div_le_iff₀ hQpos]
              exact hsize_le
          obtain ⟨wd, hloop, hmlf1, hcase⟩ := impl_no_rehash hg hins
          have hidxlt : bucket_index h m.buckets b.key < m.buckets.length := by
            rw [bucket_index_eq_mod hL]
            exact Nat.mod_lt _ hpos
          have hfdnone : ∀ d : Nat, (none : Option Nat) = some d →
              d < m.buckets.length ∧
              (m.buckets.get? d).map Bucket.state = some State.Deleted :=
            fun d hd => by cases hd
          obtain ⟨hbs1, hpos1lt, hwdiff, hKAf, hNF⟩ :=
            insertLoop_eq hL hloop hfdnone hidxlt
          obtain ⟨bo, hbo⟩ : ∃ bo, m.buckets.get? pos1 = some bo :=
            List.get?_eq_get hpos1lt ▸ ⟨_, rfl⟩
          have hins1 : ins1 = true := by
            cases hins1c : ins1 with
            | true => rfl
            | false =>
              have hKA := hKAf hins1c
              exact absurd ⟨pos1, hpos1lt, hKA⟩
                (hdisj b.key (List.mem_cons_self b.key (filledKeys rest)))
          have hboNF : bo.state ≠ State.Filled := by
            intro hc
            refine hNF hins1 ?_
            rw [map_state_eq hbo, hc]
          have hboND : bo.state ≠ State.Deleted := no_deleted_slot hd0 hbo
          have hwd : wd = false := by
            cases hwdc : wd with
            | false => rfl
            | true =>
              have hdel := hwdiff.mp hwdc
              rw [map_state_eq hbo] at hdel
              exact absurd (by injection hdel) hboND
          rcases hcase with ⟨_, hsz1, htb1⟩ | ⟨hc, _, _⟩
          swap
          · rw [hins1] at hc
            exact Bool.noConfusion hc
          have htb1' : m1.tombstones = 0 := by
            rw [htb1, hwd]
            simpa using ht0
          have hlen1 : m1.buckets.length = m.buckets.length := by
            rw [hbs1, List.length_set]
          have hL1 : m1.buckets.length = 2 ^ p := by rw [hlen1, hL]
          have hd1 : deletedCount m1.buckets = 0 := by
            have hcnt := countP_set_eq2 (fun bb => bb.state == State.Deleted)
              hbo (⟨b.key, b.value, State.Filled⟩ : Bucket)
            have hif1 : (if (bo.state == State.Deleted) = true then 1 else 0) = 0 := by
              rw [if_neg]
              intro hc
              exact hboND (beq_iff_eq.mp hc)
            have hif2 : (if (((⟨b.key, b.value, State.Filled⟩ : Bucket)).state ==
                State.Deleted) = true then 1 else 0) = 0 := rfl
            rw [hif1, hif2] at hcnt
            unfold deletedCount at hd0 ⊢
            rw [hbs1]
            omega
          have hf1 : filledCount m1.buckets = filledCount m.buckets + 1 := by
            have hcnt := countP_set_eq2 (fun bb => bb.state == State.Filled)
              hbo (⟨b.key, b.value, State.Filled⟩ : Bucket)
            have hif1 : (if (bo.state == State.Filled) = true then 1 else 0) = 0 := by
              rw [if_neg]
              intro hc
              exact hboNF (beq_iff_eq.mp hc)
            have hif2 : (if (((⟨b.key, b.value, State.Filled⟩ : Bucket)).state ==
                State.Filled) = true then 1 else 0) = 1 := rfl
            rw [hif1, hif2] at hcnt
            unfold filledCount
            rw [hbs1]
            omega
          have hsz1' : m1.size = filledCount m1.buckets := by
            rw [hsz1, hf1, hsz]
          have hbudget1 : ((m1.size + (filledKeys rest).length : Nat) : ℚ) ≤
              m1.max_load_factor * (m1.buckets.length : ℚ) := by
            rw [hsz1, hmlf1, hlen1]
            push_cast
            push_cast at hbudget
            simp only [List.length_cons] at hbudget
            push_cast at hbudget
            linarith
          have hnodup' : (filledKeys rest).Nodup := (List.nodup_cons.mp hnodup).2
          have hbknotin : b.key ∉ filledKeys rest := (List.nodup_cons.mp hnodup).1
          have hdisj1 : ∀ k', k' ∈ filledKeys rest → ¬ HasKey m1.buckets k' := by
            intro k' hk' hhk
            rw [hbs1] at hhk
            rcases HasKey_set_elim hhk with hold | ⟨hkeq, _⟩
            · exact hdisj k' (List.mem_cons_of_mem _ hk') hold
            · exact hbknotin (hkeq ▸ hk')
          have hfind_new : find h m1 b.key = some (some b.value) := by
            obtain ⟨_, _, hfl⟩ := insertLoop_then_find hL hloop
            rw [find_eq_findLoop hL1]
            rw [bucket_index_eq_mod hL1] at hfl
            exact hfl
          have hfind1 : ∀ k' v', HasPair m.buckets k' v' →
              find h m1 k' = some (some v') := by
            intro k' v' hp
            have hk'neq : b.key ≠ k' := by
              intro hc
              obtain ⟨i, hiL, hFA⟩ := hp
              refine hdisj b.key (List.mem_cons_self b.key (filledKeys rest)) ?_
              exact ⟨i, hiL, hc ▸ KeyAt_of_FilledAt hFA⟩
            have hfm := hfind k' v' hp
            rw [find_eq_findLoop hL] at hfm
            have hKAold : ¬ KeyAt m.buckets pos1 k' := by
              intro hKA
              obtain ⟨hKs, _⟩ := hKA
              rw [map_state_eq hbo] at hKs
              exact hboNF (by injection hKs)
            rw [find_eq_findLoop hL1, hbs1]
            exact findLoop_set_frame hL hpos1lt hk'neq hKAold hfm
          have hpairs1 : ∀ k' v', HasPair m.buckets k' v' →
              HasPair m1.buckets k' v' := by
            intro k' v' hp
            rw [hbs1]
            refine HasPair_set_preserve ?_ hp
            rw [map_state_eq hbo]
            intro hc
            exact hboNF (by injection hc)
          have hpair_new : HasPair m1.buckets b.key b.value := by
            rw [hbs1]
            refine ⟨pos1, by rw [List.length_set]; exact hpos1lt, ?_⟩
            unfold FilledAt
            rw [List.get?_set_eq, hbo]
            rfl
          have hnokey1 : ∀ k0, ¬ HasKey m.buckets k0 → k0 ≠ b.key →
              ¬ HasKey m1.buckets k0 := by
            intro k0 h1 h2 hc
            rw [hbs1] at hc
            rcases HasKey_set_elim hc with hold | ⟨hkeq, _⟩
            · exact h1 hold
            · exact h2 hkeq.symm
          have hfindAll1 : ∀ k' v', HasPair m1.buckets k' v' →
              find h m1 k' = some (some v') := by
            intro k' v' hp
            obtain ⟨i, hiL, hFA⟩ := hp
            by_cases hip : pos1 = i
            · subst hip
              rw [hbs1] at hFA
              unfold FilledAt at hFA
              rw [List.get?_set_eq, hbo] at hFA
              simp only [Option.map_some, Option.some.injEq, Bucket.mk.injEq] at hFA
              obtain ⟨hk'', hv'', _⟩ := hFA
              rw [← hk'', ← hv'']
              exact hfind_new
            · have hFA' : FilledAt m.buckets i k' v' := by
                unfold FilledAt at hFA ⊢
                rw [hbs1, List.get?_set_ne _ _ hip] at hFA
                exact hFA
              rw [hlen1] at hiL
              exact hfind1 k' v' ⟨i, hiL, hFA'⟩
          obtain ⟨ihL, ihT, ihD, ihS, ihSF, ihM, ihFindOld, ihFindRest, ihNoKey⟩ :=
            ih hrun hL1 htb1' hd1 hsz1' hbudget1 hnodup' hdisj1 hfindAll1
          refine ⟨by rw [ihL, hlen1], ihT, ihD, ?_, ihSF,
            by rw [ihM, hmlf1], ?_, ?_, ?_⟩
          · rw [ihS, hsz1]
            simp only [List.length_cons]
            omega
          · intro k' v' hp
            exact ihFindOld k' v' (hpairs1 k' v' hp)
          · intro b2 hb2 hb2f
            rcases List.mem_cons.mp hb2 with hb2e | hb2m
            · subst hb2e
              exact ihFindOld b2.key b2.value hpair_new
            · exact ihFindRest b2 hb2m hb2f
          · intro k0 h1 h2
            have h2a : k0 ∉ filledKeys rest := by
              intro hc
              exact h2 (List.mem_cons_of_mem _ hc)
            have h2b : k0 ≠ b.key := by
              intro hc
              exact h2 (hc ▸ List.mem_cons_self b.key (filledKeys rest))
            exact ihNoKey k0 (hnokey1 k0 h1 h2b) h2a
      · rw [if_neg hbf] at hrun
        rw [filledKeys_cons_not hbf] at hbudget hnodup hdisj ⊢
        obtain ⟨ihL, ihT, ihD, ihS, ihSF, ihM, ihFindOld, ihFindRest, ihNoKey⟩ :=
          ih hrun hL ht0 hd0 hsz hbudget hnodup hdisj hfind
        refine ⟨ihL, ihT, ihD, ihS, ihSF, ihM, ihFindOld, ?_, ihNoKey⟩
        intro b2 hb2 hb2f
        rcases List.mem_cons.mp hb2 with hb2e | hb2m
        · subst hb2e
          exact absurd hb2f hbf
        · exact ihFindRest b2 hb2m hb2f

theorem filledKeys_length (bs : List Bucket) :
    (filledKeys bs).length = filledCount bs := by
  induction bs with
  | nil => rfl
  | cons b rest ihb =>
    unfold filledCount at ihb ⊢
    rw [List.countP_cons]
    by_cases hbf : b.state = State.Filled
    · rw [filledKeys_cons_filled hbf, List.length_cons, ihb]
      simp [hbf]
    · rw [filledKeys_cons_not hbf, ihb]
      have : ((b.state == State.Filled) : Bool) = false := by
        rw [beq_eq_false_iff_ne]
        exact hbf
      rw [this]
      simp

theorem mem_filledKeys_of_KeyAt {bs : List Bucket} :
    ∀ {i k : Nat}, KeyAt bs i k → k ∈ filledKeys bs := by
  induction bs with
  | nil =>
    intro i k hKA
    obtain ⟨hs, _⟩ := hKA
    rw [show ([] : List Bucket).get? i = none from by cases i <;> rfl] at hs
    exact Option.noConfusion hs
  | cons b rest ihb =>
    intro i k hKA
    obtain ⟨hs, hk⟩ := hKA
    cases i with
    | zero =>
      rw [show (b :: rest).get? 0 = some b from rfl] at hs hk
      have hbf : b.state = State.Filled := by injection hs
      have hbk : b.key = k := by injection hk
      rw [filledKeys_cons_filled hbf, hbk]
      exact List.mem_cons_self k (filledKeys rest)
    | succ i =>
      rw [show (b :: rest).get? (i + 1) = rest.get? i from rfl] at hs hk
      have hmem : k ∈ filledKeys rest := ihb ⟨hs, hk⟩
      by_cases hbf : b.state = State.Filled
      · rw [filledKeys_cons_filled hbf]
        exact List.mem_cons_of_mem _ hmem
      · rw [filledKeys_cons_not hbf]
        exact hmem

theorem KeyAt_of_mem_filledKeys {bs : List Bucket} :
    ∀ {k : Nat}, k ∈ filledKeys bs → ∃ i < bs.length, KeyAt bs i k := by
  induction bs with
  | nil =>
    intro k hk
    rw [show filledKeys [] = [] from rfl] at hk
    exact absurd hk (List.not_mem_nil k)
  | cons b rest ihb =>
    intro k hk
    by_cases hbf : b.state = State.Filled
    · rw [filledKeys_cons_filled hbf] at hk
      rcases List.mem_cons.mp hk with hke | hkm
      · refine ⟨0, Nat.succ_pos _, ?_, ?_⟩
        · rw [map_state_eq (show (b :: rest).get? 0 = some b from rfl), hbf]
        · rw [map_key_eq (show (b :: rest).get? 0 = some b from rfl), hke]
      · obtain ⟨i, hiL, hKA⟩ := ihb hkm
        exact ⟨i + 1, Nat.succ_lt_succ hiL, hKA⟩
    · rw [filledKeys_cons_not hbf] at hk
      obtain ⟨i, hiL, hKA⟩ := ihb hk
      exact ⟨i + 1, Nat.succ_lt_succ hiL, hKA⟩

/-- Under the key-uniqueness invariant (no duplicated key among `Filled`
slots), the slot holding a key is unique. -/
theorem KeyAt_unique {bs : List Bucket} (hnd : (filledKeys bs).Nodup) :
    ∀ {i j k : Nat}, KeyAt bs i k → KeyAt bs j k → i = j := by
  induction bs with
  | nil =>
    intro i j k hKA _
    obtain ⟨hs, _⟩ := hKA
    rw [show ([] : List Bucket).get? i = none from by cases i <;> rfl] at hs
    exact Option.noConfusion hs
  | cons b rest ihb =>
    intro i j k hKAi hKAj
    have hndrest : (filledKeys rest).Nodup := by
      by_cases hbf : b.state = State.Filled
      · rw [filledKeys_cons_filled hbf] at hnd
        exact (List.nodup_cons.mp hnd).2
      · rwa [filledKeys_cons_not hbf] at hnd
    cases i with
    | zero =>
      cases j with
      | zero => rfl
      | succ j =>
        obtain ⟨hs, hk⟩ := hKAi
        rw [show (b :: rest).get? 0 = some b from rfl] at hs hk
        have hbf : b.state = State.Filled := by injection hs
        have hbk : b.key = k := by injection hk
        rw [filledKeys_cons_filled hbf] at hnd
        have hnotin := (List.nodup_cons.mp hnd).1
        have : k ∈ filledKeys rest := mem_filledKeys_of_KeyAt hKAj
        rw [hbk] at hnotin
        exact absurd this hnotin
    | succ i =>
      cases j with
      | zero =>
        obtain ⟨hs, hk⟩ := hKAj
        rw [show (b :: rest).get? 0 = some b from rfl] at hs hk
        have hbf : b.state = State.Filled := by injection hs
        have hbk : b.key = k := by injection hk
        rw [filledKeys_cons_filled hbf] at hnd
        have hnotin := (List.nodup_cons.mp hnd).1
        have : k ∈ filledKeys rest := mem_filledKeys_of_KeyAt hKAi
        rw [hbk] at hnotin
        exact absurd this hnotin
      | succ j =>
        have := ihb hndrest (i := i) (j := j) (k := k) hKAi hKAj
        omega

theorem filledKeys_set_sublist {bnew : Bucket} (hbn : bnew.state ≠ State.Filled) :
    ∀ (bs : List Bucket) (i : Nat),
    (filledKeys (bs.set i bnew)).Sublist (filledKeys bs) := by
  intro bs
  induction bs with
  | nil => intro i; simp
  | cons b rest ihb =>
    intro i
    cases i with
    | zero =>
      rw [List.set_cons_zero, filledKeys_cons_not hbn]
      by_cases hbf : b.state = State.Filled
      · rw [filledKeys_cons_filled hbf]
        exact List.Sublist.cons _ (List.Sublist.refl _)
      · rw [filledKeys_cons_not hbf]
    | succ i =>
      rw [List.set_cons_succ]
      by_cases hbf : b.state = State.Filled
      · rw [filledKeys_cons_filled hbf, filledKeys_cons_filled hbf]
        exact List.Sublist.cons₂ _ (ihb i)
      · rw [filledKeys_cons_not hbf, filledKeys_cons_not hbf]
        exact ihb i

theorem not_HasKey_replicate (n k : Nat) :
    ¬ HasKey (List.replicate n emptyBucket) k := by
  intro hc
  obtain ⟨i, hiL, hKA, _⟩ := hc
  rw [List.length_replicate] at hiL
  rw [List.get?_eq_getElem?, List.getElem?_replicate, if_pos hiL] at hKA
  exact State.noConfusion (by injection hKA : State.Empty = State.Filled)

theorem not_HasPair_replicate (n k v : Nat) :
    ¬ HasPair (List.replicate n emptyBucket) k v := by
  intro hc
  obtain ⟨i, hiL, hFA⟩ := hc
  rw [List.length_replicate] at hiL
  unfold FilledAt at hFA
  rw [List.get?_eq_getElem?, List.getElem?_replicate, if_pos hiL] at hFA
  simp [emptyBucket] at hFA

theorem next_pow2_zero_or_pow (x : Nat) :
    next_pow2 x = 0 ∨ ∃ q, 1 ≤ q ∧ next_pow2 x = 2 ^ q := by
  by_cases hx2 : x % 2 ^ 64 < 2
  · refine Or.inr ⟨1, Nat.le_refl 1, ?_⟩
    unfold next_pow2
    rw [if_pos hx2]
    norm_num
  · push_neg at hx2
    have hnp : next_pow2 x = (smear (x % 2 ^ 64 - 1) + 1) % 2 ^ 64 := by
      unfold next_pow2
      rw [if_neg (by omega)]
    have hy1 : 1 ≤ x % 2 ^ 64 - 1 := by omega
    have hylt : x % 2 ^ 64 - 1 < 2 ^ 64 := by
      have hm : x % 2 ^ 64 < 2 ^ 64 := Nat.mod_lt _ (by norm_num)
      omega
    have hsm := smear_eq_pow_sub_one hy1 hylt
    have hlog : Nat.log 2 (x % 2 ^ 64 - 1) ≤ 63 := by
      have := Nat.log_lt_of_lt_pow (by omega : x % 2 ^ 64 - 1 ≠ 0) hylt
      omega
    by_cases h63 : Nat.log 2 (x % 2 ^ 64 - 1) = 63
    · refine Or.inl ?_
      rw [hnp, hsm, h63]
      norm_num
    · refine Or.inr ⟨Nat.log 2 (x % 2 ^ 64 - 1) + 1, by omega, ?_⟩
      have hlt2 : 2 ^ (Nat.log 2 (x % 2 ^ 64 - 1) + 1) < 2 ^ 64 :=
        Nat.pow_lt_pow_right (by norm_num) (by omega)
      have hppos : 1 ≤ 2 ^ (Nat.log 2 (x % 2 ^ 64 - 1) + 1) := Nat.one_le_two_pow
      rw [hnp, hsm, Nat.sub_add_cancel hppos, Nat.mod_eq_of_lt hlt2]

theorem next_pow2_two_le {x : Nat} (hx : x ≤ 2 ^ 63) : 2 ≤ next_pow2 x := by
  by_cases hx2 : x < 2
  · rw [next_pow2_small hx2]
  · push_neg at hx2
    rw [next_pow2_eq hx2 hx]
    calc (2 : Nat) = 2 ^ 1 := rfl
    _ ≤ _ := Nat.pow_le_pow_right (by norm_num) (by omega)

/-- Unfolding a successful `erase`: the found slot, and the two exits
(compaction rehash at the same length, or just the tombstone write). -/
theorem erase_elim {p fuel : Nat} {h : Nat → Nat} {m : Map} {k : Nat} {m' : Map}
    (hL : m.buckets.length = 2 ^ p)
    (hrun : erase fuel h m k = some (true, m')) :
    ∃ i b, i < m.buckets.length ∧ m.buckets.get? i = some b ∧
      b.state = State.Filled ∧ b.key = k ∧
      ((m.buckets.length / 2 < m.tombstones + 1 ∧
        rehash fuel h
          { m with
            buckets := m.buckets.set i { b with state := State.Deleted }
            size := m.size - 1
            tombstones := m.tombstones + 1 } m.buckets.length = some m') ∨
       (m.tombstones + 1 ≤ m.buckets.length / 2 ∧
        m' = { m with
               buckets := m.buckets.set i { b with state := State.Deleted }
               size := m.size - 1
               tombstones := m.tombstones + 1 })) := by
  unfold erase at hrun
  rw [ne_nil_of_pow hL] at hrun
  simp only [Bool.false_eq_true, if_false] at hrun
  have hidx : bucket_index h m.buckets k < m.buckets.length := by
    rw [bucket_index_eq_mod hL]
    exact Nat.mod_lt _ (length_pos_of_pow hL)
  cases hloop : eraseLoop k m.buckets (bucket_index h m.buckets k)
      m.buckets.length with
  | none => rw [hloop] at hrun; exact Option.noConfusion hrun
  | some r =>
    cases r with
    | none =>
      rw [hloop] at hrun
      injection hrun with hrun
      exact absurd (congrArg Prod.fst hrun) (by simp)
    | some ib =>
      obtain ⟨i, b⟩ := ib
      simp only [hloop] at hrun
      obtain ⟨hiL, hget, hbf, hbk⟩ := eraseLoop_found_char hL hloop hidx
      refine ⟨i, b, hiL, hget, hbf, hbk, ?_⟩
      by_cases hguard : ({ m with
          buckets := m.buckets.set i { b with state := State.Deleted }
          size := m.size - 1
          tombstones := m.tombstones + 1 } : Map).buckets.length / 2 <
        ({ m with
          buckets := m.buckets.set i { b with state := State.Deleted }
          size := m.size - 1
          tombstones := m.tombstones + 1 } : Map).tombstones
      · rw [if_pos hguard] at hrun
        have hguard' : m.buckets.length / 2 < m.tombstones + 1 := by
          have h1 : ({ m with
              buckets := m.buckets.set i { b with state := State.Deleted }
              size := m.size - 1
              tombstones := m.tombstones + 1 } : Map).buckets.length =
              m.buckets.length := List.length_set _ _ _
          have h2 : ({ m with
              buckets := m.buckets.set i { b with state := State.Deleted }
              size := m.size - 1
              tombstones := m.tombstones + 1 } : Map).tombstones =
              m.tombstones + 1 := rfl
          omega
        refine Or.inl ⟨hguard', ?_⟩
        cases hre : rehash fuel h { m with
            buckets := m.buckets.set i { b with state := State.Deleted }
            size := m.size - 1
            tombstones := m.tombstones + 1 } (m.buckets.length) with
        | none =>
          rw [show ({ m with
              buckets := m.buckets.set i { b with state := State.Deleted }
              size := m.size - 1
              tombstones := m.tombstones + 1 } : Map).buckets.length =
              m.buckets.length from List.length_set _ _ _] at hrun
          rw [hre] at hrun
          exact Option.noConfusion hrun
        | some mr =>
          rw [show ({ m with
              buckets := m.buckets.set i { b with state := State.Deleted }
              size := m.size - 1
              tombstones := m.tombstones + 1 } : Map).buckets.length =
              m.buckets.length from List.length_set _ _ _] at hrun
          rw [hre] at hrun
          simpa using hrun
      · rw [if_neg hguard] at hrun
        injection hrun with hrun
        have hm' : m' = { m with
            buckets := m.buckets.set i { b with state := State.Deleted }
            size := m.size - 1
            tombstones := m.tombstones + 1 } := (congrArg Prod.snd hrun).symm
        have hguard'' : m.tombstones + 1 ≤ m.buckets.length / 2 := by
          push_neg at hguard
          have h1 : ({ m with
              buckets := m.buckets.set i { b with state := State.Deleted }
              size := m.size - 1
              tombstones := m.tombstones + 1 } : Map).buckets.length =
              m.buckets.length := List.length_set _ _ _
          have h2 : ({ m with
              buckets := m.buckets.set i { b with state := State.Deleted }
              size := m.size - 1
              tombstones := m.tombstones + 1 } : Map).tombstones =
              m.tombstones + 1 := rfl
          omega
        exact Or.inr ⟨hguard'', hm'⟩

end ReinsertLemmas

section ReachableInv

/-- An `erase` call either reports "not found" and leaves the table untouched,
or reports success on a non-empty table. -/
theorem erase_cases {fuel : Nat} {h : Nat → Nat} {m : Map} {k : Nat} {fl : Bool}
    {m' : Map} (hrun : erase fuel h m k = some (fl, m')) :
    (fl = false ∧ m' = m) ∨ (fl = true ∧ m.buckets.isEmpty = false) := by
  unfold erase at hrun
  by_cases hemp : m.buckets.isEmpty = true
  · rw [if_pos hemp] at hrun
    injection hrun with hr
    exact Or.inl ⟨(congrArg Prod.fst hr).symm, (congrArg Prod.snd hr).symm⟩
  · rw [if_neg hemp] at hrun
    have hempf : m.buckets.isEmpty = false := Bool.not_eq_true _ ▸ hemp
    cases hloop : eraseLoop k m.buckets (bucket_index h m.buckets k)
        m.buckets.length with
    | none => rw [hloop] at hrun; exact Option.noConfusion hrun
    | some r =>
      cases r with
      | none =>
        rw [hloop] at hrun
        injection hrun with hr
        exact Or.inl ⟨(congrArg Prod.fst hr).symm, (congrArg Prod.snd hr).symm⟩
      | some ib =>
        obtain ⟨i, b⟩ := ib
        simp only [hloop] at hrun
        refine Or.inr ⟨?_, hempf⟩
        by_cases hguard : ({ m with
            buckets := m.buckets.set i { b with state := State.Deleted }
            size := m.size - 1
            tombstones := m.tombstones + 1 } : Map).buckets.length / 2 <
          ({ m with
            buckets := m.buckets.set i { b with state := State.Deleted }
            size := m.size - 1
            tombstones := m.tombstones + 1 } : Map).tombstones
        · rw [if_pos hguard] at hrun
          cases hre : rehash fuel h { m with
              buckets := m.buckets.set i { b with state := State.Deleted }
              size := m.size - 1
              tombstones := m.tombstones + 1 }
              ({ m with
                buckets := m.buckets.set i { b with state := State.Deleted }
                size := m.size - 1
                tombstones := m.tombstones + 1 } : Map).buckets.length with
          | none => rw [hre] at hrun; exact Option.noConfusion hrun
          | some mr =>
            rw [hre] at hrun
            have hr0 : (some (true, mr) : Option (Bool × Map)) = some (fl, m') :=
              hrun
            injection hr0 with hr
            exact (congrArg Prod.fst hr).symm
        · rw [if_neg hguard] at hrun
          injection hrun with hr
          exact (congrArg Prod.fst hr).symm

/-- The structural invariant carried by every reachable table state: the
length is unallocated or a nontrivial power of two, the `tombstones_` field
counts the `Deleted` slots exactly, and it never exceeds half the capacity. -/
theorem reachable_inv {h : Nat → Nat} {m : Map} (hr : Reachable h m) :
    LenOk m ∧ deletedCount m.buckets = m.tombstones ∧
      m.tombstones ≤ m.buckets.length / 2 := by
  induction hr with
  | default_ctor =>
    exact ⟨Or.inl rfl, rfl, Nat.le_refl 0⟩
  | bucket_ctor n =>
    refine ⟨?_, ?_, ?_⟩
    · rcases next_pow2_zero_or_pow n with h0 | ⟨q, hq, hpow⟩
      · exact Or.inl (by rw [show (mkMapWith n).buckets =
          List.replicate (next_pow2 n) emptyBucket from rfl, h0]; rfl)
      · refine Or.inr ⟨q, hq, ?_⟩
        rw [show (mkMapWith n).buckets =
          List.replicate (next_pow2 n) emptyBucket from rfl,
          List.length_replicate, hpow]
    · exact deletedCount_replicate_empty _
    · exact Nat.zero_le _
  | @insert_op m0 m1 fuel k v pos flag _ hins ihm =>
    obtain ⟨hok, hacc, hhalf⟩ := ihm
    obtain ⟨_, hlp, haccp, _, hhalfp⟩ := (fuel_pack fuel).1 h m0 k v m1 pos flag hins
    exact ⟨Or.inr (hlp hok), haccp hok hacc, hhalfp hhalf⟩
  | @erase_op m0 m1 fuel k flag _ hera ihm =>
    obtain ⟨hok, hacc, hhalf⟩ := ihm
    rcases erase_cases hera with ⟨_, heq⟩ | ⟨hfl, hempf⟩
    · rw [heq]
      exact ⟨hok, hacc, hhalf⟩
    · have hlp : LenPow m0 := by
        rcases hok with hnil | hlp
        · rw [hnil] at hempf
          simp at hempf
        · exact hlp
      obtain ⟨q, hq, hL⟩ := hlp
      rw [hfl] at hera
      obtain ⟨i, b, hiL, hget, hbf, hbk, hcases⟩ := erase_elim hL hera
      have hd2 : deletedCount (m0.buckets.set i
          { b with state := State.Deleted }) = m0.tombstones + 1 := by
        have hcnt := countP_set_eq2 (fun bb => bb.state == State.Deleted) hget
          ({ b with state := State.Deleted })
        have hif1 : (if (b.state == State.Deleted) = true then 1 else 0) = 0 := by
          rw [hbf]
          rfl
        have hif2 : (if (({ b with state := State.Deleted } : Bucket).state ==
            State.Deleted) = true then 1 else 0) = 1 := rfl
        rw [hif1, hif2] at hcnt
        unfold deletedCount at hacc ⊢
        omega
      rcases hcases with ⟨_, hreh⟩ | ⟨hguard, hm'⟩
      · obtain ⟨_, hlp', ht', hd'⟩ := (fuel_pack fuel).2.2.1 h _ _ m1 hreh
        refine ⟨Or.inr hlp', by rw [hd', ht'], by rw [ht']; exact Nat.zero_le _⟩
      · rw [hm']
        refine ⟨?_, ?_, ?_⟩
        · refine Or.inr ⟨q, hq, ?_⟩
          show (m0.buckets.set i { b with state := State.Deleted }).length = 2 ^ q
          rw [List.length_set]
          exact hL
        · exact hd2
        · show m0.tombstones + 1 ≤
            (m0.buckets.set i { b with state := State.Deleted }).length / 2
          rw [List.length_set]
          exact hguard
  | @clear_op m0 _ ihm =>
    obtain ⟨hok, _, _⟩ := ihm
    have hbk : (clear m0).buckets =
        m0.buckets.map (fun b => { b with state := State.Empty }) := rfl
    refine ⟨?_, ?_, Nat.zero_le _⟩
    · rcases hok with hnil | ⟨q, hq, hL⟩
      · exact Or.inl (by rw [hbk, hnil]; rfl)
      · exact Or.inr ⟨q, hq, by rw [hbk, List.length_map]; exact hL⟩
    · show deletedCount (clear m0).buckets = 0
      rw [hbk]
      unfold deletedCount
      rw [List.countP_eq_zero]
      intro bb hbb
      obtain ⟨b0, _, hb0⟩ := List.mem_map.mp hbb
      rw [← hb0]
      simp
  | @reserve_op m0 m1 fuel n _ hres ihm =>
    obtain ⟨hok, hacc, hhalf⟩ := ihm
    unfold reserve at hres
    by_cases hcond : m0.buckets.length < ⌊(n : ℚ) / m0.max_load_factor⌋₊ + 1
    · rw [if_pos hcond] at hres
      obtain ⟨_, hlp', ht', hd'⟩ := (fuel_pack fuel).2.2.1 h _ _ m1 hres
      exact ⟨Or.inr hlp', by rw [hd', ht'], by rw [ht']; exact Nat.zero_le _⟩
    · rw [if_neg hcond] at hres
      injection hres with hres
      rw [← hres]
      exact ⟨hok, hacc, hhalf⟩
  | @rehash_op m0 m1 fuel n _ hreh ihm =>
    obtain ⟨_, hlp', ht', hd'⟩ := (fuel_pack fuel).2.2.1 h m0 n m1 hreh
    exact ⟨Or.inr hlp', by rw [hd', ht'], by rw [ht']; exact Nat.zero_le _⟩
  | @set_mlf_op m0 m1 fuel f _ hset ihm =>
    obtain ⟨hok, hacc, hhalf⟩ := ihm
    unfold set_max_load_factor at hset
    by_cases hcond : f ≤ 1/10 ∨ 19/20 ≤ f
    · rw [if_pos hcond] at hset
      injection hset with hset
      exact Except.noConfusion hset
    · rw [if_neg hcond] at hset
      cases hrifn : rehash_if_needed fuel h { m0 with max_load_factor := f } with
      | none => rw [hrifn] at hset; exact Option.noConfusion hset
      | some m2 =>
        rw [hrifn] at hset
        have hset2 : (some (Except.ok m2) : Option (Except ConfigError Map)) =
            some (Except.ok m1) := hset
        injection hset2 with hset3
        have hm2 : m2 = m1 := by injection hset3
        rw [← hm2]
        have hok0 : LenOk { m0 with max_load_factor := f } := hok
        obtain ⟨_, hlp, haccp, _, hhalfp⟩ := (fuel_pack fuel).2.1 h _ m2 hrifn
        refine ⟨?_, haccp hok0 hacc, hhalfp hhalf⟩
        rcases hlp hok0 with heq | hlpx
        · rw [heq]
          exact hok
        · exact Or.inr hlpx
  | @index_op m0 m1 fuel k v _ hidx ihm =>
    obtain ⟨hok, hacc, hhalf⟩ := ihm
    unfold index_access at hidx
    cases hf : find h m0 k with
    | none =>
      simp only [hf] at hidx
      exact Option.noConfusion hidx
    | some r =>
      cases r with
      | some v0 =>
        simp only [hf] at hidx
        have hm0 : m1 = m0 := by
          injection hidx with hidx2
          exact (congrArg Prod.fst hidx2).symm
        rw [hm0]
        exact ⟨hok, hacc, hhalf⟩
      | none =>
        simp only [hf] at hidx
        cases hins : insert_or_assign_impl fuel h m0 k 0 with
        | none => rw [hins] at hidx; exact Option.noConfusion hidx
        | some r2 =>
          obtain ⟨m2, pos1, ins1⟩ := r2
          simp only [hins] at hidx
          cases hb : m2.buckets.get? pos1 with
          | none => rw [hb] at hidx; exact Option.noConfusion hidx
          | some bb =>
            rw [hb] at hidx
            injection hidx with hidx2
            have hm2 : m2 = m1 := congrArg Prod.fst hidx2
            rw [← hm2]
            obtain ⟨_, hlp, haccp, _, hhalfp⟩ :=
              (fuel_pack fuel).1 h m0 k 0 m2 pos1 ins1 hins
            exact ⟨Or.inr (hlp hok), haccp hok hacc, hhalfp hhalf⟩

end ReachableInv

section ClaimSupport

/-- A growth check whose condition is false leaves the table untouched
(forward form of `rehash_if_needed_id`). -/
theorem rehash_if_needed_skip {fuel : Nat} {h : Nat → Nat} {m : Map}
    (hg : ¬ (m.buckets.isEmpty = true ∨ m.max_load_factor < current_load m)) :
    rehash_if_needed (fuel + 1) h m = some m := by
  unfold rehash_if_needed
  rw [if_neg hg]

/-- One unfolding of `rehash` with fuel to spend: allocate the clamped
`next_pow2` array and reinsert the old slots. -/
theorem rehash_unfold (fuel : Nat) (h : Nat → Nat) (m : Map) (nb : Nat) :
    rehash (fuel + 1) h m nb =
      reinsertAll fuel h m.buckets
        { m with
          buckets := List.replicate
            (if next_pow2 nb < 2 then 2 else next_pow2 nb) emptyBucket
          size := 0
          tombstones := 0 } := rfl

/-- One unfolding of `insert_or_assign_impl` through a completed growth
check. -/
theorem impl_step {fuel : Nat} {h : Nat → Nat} {m m1 : Map} {k v : Nat}
    (hreh : rehash_if_needed fuel h m = some m1) :
    insert_or_assign_impl (fuel + 1) h m k v =
      match insertLoop k v m1.buckets (bucket_index h m1.buckets k) none
          m1.buckets.length with
      | none => none
      | some (bs, target, true, wasDel) =>
        some ({ m1 with
                buckets := bs
                size := m1.size + 1
                tombstones := if wasDel then m1.tombstones - 1
                  else m1.tombstones },
              target, true)
      | some (bs, target, false, _) =>
        some ({ m1 with buckets := bs }, target, false) := by
  unfold insert_or_assign_impl
  rw [hreh]

/-- Load of the freshly constructed two-slot table. -/
theorem ex_load0 : current_load (mkMapWith 2) = 0 := by
  unfold current_load
  rw [show (mkMapWith 2).size = 0 from rfl,
    show (mkMapWith 2).tombstones = 0 from rfl,
    show (mkMapWith 2).buckets.length = 2 from by decide]
  norm_num

/-- The growth check does not fire on the fresh two-slot table. -/
theorem ex_guard0 : ¬ ((mkMapWith 2).buckets.isEmpty = true ∨
    (mkMapWith 2).max_load_factor < current_load (mkMapWith 2)) := by
  rw [ex_load0, show (mkMapWith 2).max_load_factor = 7/10 from rfl]
  rintro (hemp | hlt)
  · exact absurd hemp (by decide)
  · norm_num at hlt

/-- Load of `exm1` (one of two slots `Filled`). -/
theorem ex_load1 : current_load exm1 = 1/2 := by
  unfold current_load
  rw [show exm1.size = 1 from rfl, show exm1.tombstones = 0 from rfl,
    show exm1.buckets.length = 2 from by decide]
  norm_num

/-- The growth check does not fire on `exm1` (load `1/2 ≤ 7/10`). -/
theorem ex_guard1 : ¬ (exm1.buckets.isEmpty = true ∨
    exm1.max_load_factor < current_load exm1) := by
  rw [ex_load1, show exm1.max_load_factor = 7/10 from rfl]
  rintro (hemp | hlt)
  · exact absurd hemp (by decide)
  · norm_num at hlt

/-- Concrete growth check on the fresh two-slot table: no rehash. -/
theorem exReh0 : rehash_if_needed 4 exHash (mkMapWith 2) = some (mkMapWith 2) :=
  rehash_if_needed_skip ex_guard0

/-- Concrete run: inserting `(0, 10)` into the fresh two-slot table writes
slot `0`. -/
theorem exStep1 :
    insert_or_assign_impl 5 exHash (mkMapWith 2) 0 10 = some (exm1, 0, true) := by
  show insert_or_assign_impl (4 + 1) exHash (mkMapWith 2) 0 10 =
    some (exm1, 0, true)
  rw [impl_step exReh0]
  rfl

/-- Concrete run: inserting `(1, 11)` into `exm1` writes slot `1` and fills
the table completely. -/
theorem exStep2 :
    insert_or_assign_impl 5 exHash exm1 1 11 = some (exm2, 1, true) := by
  show insert_or_assign_impl (4 + 1) exHash exm1 1 11 = some (exm2, 1, true)
  rw [impl_step (rehash_if_needed_skip ex_guard1)]
  rfl

/-- Concrete `reserve(2)` on the two-slot table: `needed = ⌊2 / 0.7⌋ + 1 = 3`,
so it rehashes to `next_pow2 3 = 4` slots. -/
theorem c3run : reserve 9 exHash (mkMapWith 2) 2 = some (mkMapWith 4) := by
  show (if (mkMapWith 2).buckets.length <
      ⌊((2 : Nat) : ℚ) / (mkMapWith 2).max_load_factor⌋₊ + 1 then
    rehash 9 exHash (mkMapWith 2)
      (⌊((2 : Nat) : ℚ) / (mkMapWith 2).max_load_factor⌋₊ + 1)
  else some (mkMapWith 2)) = some (mkMapWith 4)
  have hfl : ⌊((2 : Nat) : ℚ) / (mkMapWith 2).max_load_factor⌋₊ = 2 := by
    rw [show (mkMapWith 2).max_load_factor = 7/10 from rfl,
      show ((2 : Nat) : ℚ) / (7/10) = 20/7 from by norm_num,
      Nat.floor_eq_iff (by norm_num)]
    norm_num
  rw [if_pos (show (mkMapWith 2).buckets.length <
      ⌊((2 : Nat) : ℚ) / (mkMapWith 2).max_load_factor⌋₊ + 1 from by
    rw [show (mkMapWith 2).buckets.length = 2 from by decide, hfl]
    norm_num)]
  rw [show ⌊((2 : Nat) : ℚ) / (mkMapWith 2).max_load_factor⌋₊ + 1 = 3 from by
    rw [hfl]]
  show rehash (8 + 1) exHash (mkMapWith 2) 3 = some (mkMapWith 4)
  rw [rehash_unfold]
  rfl

/-- The guard of the growth check the `max_load_factor(0.5)` setter runs on
the fresh two-slot table is false. -/
theorem c6guard :
    ¬ (({ mkMapWith 2 with max_load_factor := (1:ℚ)/2 } : Map).buckets.isEmpty
        = true ∨
      ({ mkMapWith 2 with max_load_factor := (1:ℚ)/2 } : Map).max_load_factor <
        current_load { mkMapWith 2 with max_load_factor := (1:ℚ)/2 }) := by
  have hload : current_load
      { mkMapWith 2 with max_load_factor := (1:ℚ)/2 } = 0 := by
    unfold current_load
    rw [show ({ mkMapWith 2 with max_load_factor := (1:ℚ)/2 } : Map).size = 0
        from rfl,
      show ({ mkMapWith 2 with max_load_factor := (1:ℚ)/2 } : Map).tombstones
        = 0 from rfl,
      show ({ mkMapWith 2 with
        max_load_factor := (1:ℚ)/2 } : Map).buckets.length = 2 from by decide]
    norm_num
  rw [hload, show ({ mkMapWith 2 with
    max_load_factor := (1:ℚ)/2 } : Map).max_load_factor = (1:ℚ)/2 from rfl]
  rintro (hemp | hlt)
  · exact absurd hemp (by decide)
  · norm_num at hlt

/-- Concrete successful `max_load_factor(0.5)` on the fresh two-slot table. -/
theorem c6ok : set_max_load_factor 4 exHash (mkMapWith 2) (1/2) =
    some (Except.ok c6res) := by
  unfold set_max_load_factor
  rw [if_neg (show ¬ ((1:ℚ)/2 ≤ 1/10 ∨ (19:ℚ)/20 ≤ 1/2) from by norm_num)]
  rw [show rehash_if_needed 4 exHash
      { mkMapWith 2 with max_load_factor := (1:ℚ)/2 } =
      some { mkMapWith 2 with max_load_factor := (1:ℚ)/2 } from
    rehash_if_needed_skip c6guard]
  rfl

/-- Erasing a `Filled` slot: the `Filled` count drops by one (so the old size
was positive under the accuracy invariant) and the `Deleted` count grows by
one. -/
theorem erase_slot_counts {m : Map} {i : Nat} {b : Bucket}
    (hget : m.buckets.get? i = some b) (hbf : b.state = State.Filled)
    (hsz : m.size = filledCount m.buckets) :
    1 ≤ m.size ∧
    filledCount (m.buckets.set i { b with state := State.Deleted }) =
      m.size - 1 ∧
    deletedCount (m.buckets.set i { b with state := State.Deleted }) =
      deletedCount m.buckets + 1 := by
  have hfcnt := countP_set_eq2 (fun bb => bb.state == State.Filled) hget
    ({ b with state := State.Deleted })
  have hdcnt := countP_set_eq2 (fun bb => bb.state == State.Deleted) hget
    ({ b with state := State.Deleted })
  have e5 : ({ b with state := State.Deleted } : Bucket).state =
    State.Deleted := rfl
  simp only [hbf, e5] at hfcnt hdcnt
  rw [show (if ((State.Filled == State.Filled) : Bool) = true then 1 else 0) = 1
      from rfl,
    show (if ((State.Deleted == State.Filled) : Bool) = true then 1 else 0) = 0
      from rfl] at hfcnt
  rw [show (if ((State.Filled == State.Deleted) : Bool) = true then 1 else 0) = 0
      from rfl,
    show (if ((State.Deleted == State.Deleted) : Bool) = true then 1 else 0) = 1
      from rfl] at hdcnt
  have hmem : b ∈ m.buckets := by
    obtain ⟨hi2, hg2⟩ := List.get?_eq_some.mp hget
    exact hg2 ▸ List.get_mem m.buckets i hi2
  have hposf : 0 < List.countP (fun bb => bb.state == State.Filled) m.buckets :=
    List.countP_pos.mpr ⟨b, hmem, by rw [hbf]; rfl⟩
  unfold filledCount deletedCount
  unfold filledCount at hsz
  refine ⟨by omega, by omega, by omega⟩

/-- After tombstoning the unique slot holding `k`, no slot holds `k`. -/
theorem erase_slot_no_key {m : Map} {i : Nat} {b : Bucket} {k : Nat}
    (hnd : (filledKeys m.buckets).Nodup)
    (hget : m.buckets.get? i = some b) (hbf : b.state = State.Filled)
    (hbk : b.key = k) {j : Nat}
    (hjL : j < (m.buckets.set i { b with state := State.Deleted }).length) :
    ¬ KeyAt (m.buckets.set i { b with state := State.Deleted }) j k := by
  intro hKA
  by_cases hji : i = j
  · subst hji
    obtain ⟨hst, _⟩ := hKA
    rw [List.get?_set_eq, hget] at hst
    simp at hst
  · obtain ⟨hst, hk2⟩ := hKA
    rw [List.get?_set_ne _ _ hji] at hst hk2
    have hKAm : KeyAt m.buckets j k := ⟨hst, hk2⟩
    have hKAi : KeyAt m.buckets i k :=
      ⟨by rw [map_state_eq hget, hbf], by rw [map_key_eq hget, hbk]⟩
    exact hji (KeyAt_unique hnd hKAi hKAm)

/-- The compaction rehash a tombstone-heavy `erase` triggers, fully analysed:
same capacity, tombstone-free, one fewer live entry, counters accurate, every
surviving `Filled` slot findable, and no key beyond the surviving ones. -/
theorem erase_compaction {p fu : Nat} {h : Nat → Nat} {m : Map} {i : Nat}
    {b : Bucket} {m' : Map}
    (hp1 : 1 ≤ p) (hp63 : p ≤ 63)
    (hL : m.buckets.length = 2 ^ p)
    (hget : m.buckets.get? i = some b) (hbf : b.state = State.Filled)
    (hsz : m.size = filledCount m.buckets)
    (hnd : (filledKeys m.buckets).Nodup)
    (hbudget : (m.size : ℚ) ≤ m.max_load_factor * (m.buckets.length : ℚ) + 1)
    (hreh : rehash (fu + 1) h
      { m with
        buckets := m.buckets.set i { b with state := State.Deleted }
        size := m.size - 1
        tombstones := m.tombstones + 1 } m.buckets.length = some m') :
    m'.buckets.length = m.buckets.length ∧
    m'.tombstones = 0 ∧
    deletedCount m'.buckets = 0 ∧
    m'.size = m.size - 1 ∧
    m'.size = filledCount m'.buckets ∧
    (∀ b2 ∈ m.buckets.set i { b with state := State.Deleted },
      b2.state = State.Filled → find h m' b2.key = some (some b2.value)) ∧
    (∀ k0, k0 ∉ filledKeys (m.buckets.set i { b with state := State.Deleted }) →
      ¬ HasKey m'.buckets k0) := by
  obtain ⟨hsz1, hfc2, _⟩ := erase_slot_counts hget hbf hsz
  rw [rehash_unfold] at hreh
  have hnp : next_pow2 m.buckets.length = 2 ^ p := by
    rw [hL]
    exact next_pow2_self_pow hp1 hp63
  have h2lep : 2 ≤ 2 ^ p := by
    calc (2 : Nat) = 2 ^ 1 := rfl
    _ ≤ 2 ^ p := Nat.pow_le_pow_right (by norm_num) hp1
  have hclamp : (if next_pow2 m.buckets.length < 2 then 2
      else next_pow2 m.buckets.length) = 2 ^ p := by
    rw [hnp]
    exact if_neg (by omega)
  rw [hclamp] at hreh
  have hreh2 : reinsertAll fu h
      (m.buckets.set i { b with state := State.Deleted })
      { m with
        buckets := List.replicate (2 ^ p) emptyBucket
        size := 0
        tombstones := 0 } = some m' := hreh
  have hfreshL : ({ m with
      buckets := List.replicate (2 ^ p) emptyBucket
      size := 0
      tombstones := 0 } : Map).buckets.length = 2 ^ p :=
    List.length_replicate _ _
  have hkeysLen :
      (filledKeys (m.buckets.set i { b with state := State.Deleted })).length =
        m.size - 1 := by
    rw [filledKeys_length]
    exact hfc2
  have hnd2 : (filledKeys
      (m.buckets.set i { b with state := State.Deleted })).Nodup := by
    have hsub := filledKeys_set_sublist
      (show ({ b with state := State.Deleted } : Bucket).state ≠ State.Filled
        from fun hc => State.noConfusion hc) m.buckets i
    exact hnd.sublist hsub
  obtain ⟨hlen', htomb', hdel', hsize', hacc', _, _, hins', hnokey'⟩ :=
    reinsertAll_good (m.buckets.set i { b with state := State.Deleted })
      hreh2 hfreshL rfl (deletedCount_replicate_empty _)
      (filledCount_replicate_empty _).symm
      (by
        show ((0 + (filledKeys (m.buckets.set i
            { b with state := State.Deleted })).length : Nat) : ℚ) ≤
          m.max_load_factor * (({ m with
            buckets := List.replicate (2 ^ p) emptyBucket
            size := 0
            tombstones := 0 } : Map).buckets.length : ℚ)
        rw [hkeysLen, hfreshL, Nat.zero_add, ← hL]
        rw [show ((m.size - 1 : Nat) : ℚ) = (m.size : ℚ) - 1 from by
          rw [Nat.cast_sub hsz1, Nat.cast_one]]
        linarith [hbudget])
      hnd2
      (fun k0 _ => not_HasKey_replicate _ k0)
      (fun k0 v0 hp0 => absurd hp0 (not_HasPair_replicate _ k0 v0))
  refine ⟨by rw [hlen', hfreshL, hL], htomb', hdel', ?_, hacc', hins', ?_⟩
  · rw [hsize', hkeysLen]
    show 0 + (m.size - 1) = m.size - 1
    exact Nat.zero_add _
  · intro k0 hk0
    exact hnokey' k0 (not_HasKey_replicate _ k0) hk0

/-- A successful `find` answer exhibits its `Filled` slot. -/
theorem find_some_slot {p : Nat} {h : Nat → Nat} {m : Map} {k v : Nat}
    (hL : m.buckets.length = 2 ^ p)
    (hfind : find h m k = some (some v)) :
    ∃ j < m.buckets.length, m.buckets.get? j = some ⟨k, v, State.Filled⟩ := by
  rw [find_eq_findLoop hL] at hfind
  have hidx : h k % m.buckets.length < m.buckets.length :=
    Nat.mod_lt _ (length_pos_of_pow hL)
  obtain ⟨j, hj, _, b, hb, _, hbv⟩ := findLoop_some hL hfind hidx
  obtain ⟨hbf, hbk, hbval⟩ := hbv v rfl
  have hbeq : b = ⟨k, v, State.Filled⟩ := by
    cases b
    simp only [Bucket.mk.injEq]
    exact ⟨hbk, hbval, hbf⟩
  refine ⟨(h k % m.buckets.length + j) % m.buckets.length,
    Nat.mod_lt _ (length_pos_of_pow hL), ?_⟩
  rw [← hbeq]
  exact hb

/-- A `rehash` with enough target capacity preserves every `find` answer:
the found pair sits in a `Filled` slot, and the reinsertion loop makes every
`Filled` slot of the old array findable again. -/
theorem find_preserved_rehash {p q fu : Nat} {h : Nat → Nat} {m m' : Map}
    {nb k v : Nat}
    (hq1 : 1 ≤ q)
    (hN : (if next_pow2 nb < 2 then 2 else next_pow2 nb) = 2 ^ q)
    (hL : m.buckets.length = 2 ^ p)
    (hsz : m.size = filledCount m.buckets)
    (hnd : (filledKeys m.buckets).Nodup)
    (hbudget : (m.size : ℚ) ≤ m.max_load_factor * ((2 ^ q : Nat) : ℚ))
    (hfind : find h m k = some (some v))
    (hreh : rehash (fu + 1) h m nb = some m') :
    find h m' k = some (some v) ∧ m'.buckets.length = 2 ^ q := by
  rw [rehash_unfold, hN] at hreh
  have hfreshL : ({ m with
      buckets := List.replicate (2 ^ q) emptyBucket
      size := 0
      tombstones := 0 } : Map).buckets.length = 2 ^ q :=
    List.length_replicate _ _
  have hkeysLen : (filledKeys m.buckets).length = m.size := by
    rw [filledKeys_length, hsz]
  obtain ⟨hlen', _, _, _, _, _, _, hins', _⟩ :=
    reinsertAll_good (p := q) m.buckets hreh hfreshL rfl
      (deletedCount_replicate_empty _) (filledCount_replicate_empty _).symm
      (by
        show ((0 + (filledKeys m.buckets).length : Nat) : ℚ) ≤
          m.max_load_factor *
            ((List.replicate (2 ^ q) emptyBucket).length : ℚ)
        rw [List.length_replicate, Nat.zero_add, hkeysLen]
        exact hbudget)
      hnd
      (fun k0 _ => not_HasKey_replicate _ k0)
      (fun k0 v0 hp0 => absurd hp0 (not_HasPair_replicate _ k0 v0))
  obtain ⟨j, hjL, hslot⟩ := find_some_slot hL hfind
  obtain ⟨hjlt, hjel⟩ := get?_eq_getElem_of_lt hslot
  have hmem : (⟨k, v, State.Filled⟩ : Bucket) ∈ m.buckets :=
    hjel ▸ List.getElem_mem hjlt
  exact ⟨hins' _ hmem rfl, by rw [hlen']; exact hfreshL⟩

/-- The pre-insert growth check preserves every `find` answer: either it does
nothing, or (on a table that is non-empty because its length is a power of
two) it doubles the capacity through `rehash`, which preserves the pair. -/
theorem find_preserved_rifn {p fuel : Nat} {h : Nat → Nat} {m mA : Map}
    {k v : Nat}
    (hp1 : 1 ≤ p) (hp62 : p ≤ 62)
    (hL : m.buckets.length = 2 ^ p)
    (hsz : m.size = filledCount m.buckets)
    (hnd : (filledKeys m.buckets).Nodup)
    (hbudget2 : (m.size : ℚ) ≤ m.max_load_factor * ((2 ^ (p + 1) : Nat) : ℚ))
    (hfind : find h m k = some (some v))
    (hreh : rehash_if_needed fuel h m = some mA) :
    find h mA k = some (some v) ∧ ∃ pA, 1 ≤ pA ∧ mA.buckets.length = 2 ^ pA := by
  cases fuel with
  | zero => exact absurd hreh (by unfold rehash_if_needed; simp)
  | succ fu =>
    by_cases hg : m.buckets.isEmpty = true ∨ m.max_load_factor < current_load m
    · have hnemp : m.buckets.isEmpty = false := ne_nil_of_pow hL
      unfold rehash_if_needed at hreh
      rw [if_pos hg] at hreh
      have harg : (if m.buckets.isEmpty then 16 else m.buckets.length * 2) =
          2 ^ (p + 1) := by
        rw [if_neg (show ¬ (m.buckets.isEmpty = true) from by
          rw [hnemp]; simp), hL]
        ring
      rw [harg] at hreh
      cases fu with
      | zero => exact absurd hreh (by unfold rehash; simp)
      | succ fu2 =>
        have hN : (if next_pow2 (2 ^ (p + 1)) < 2 then 2
            else next_pow2 (2 ^ (p + 1))) = 2 ^ (p + 1) := by
          rw [next_pow2_self_pow (by omega) (by omega)]
          refine if_neg ?_
          have h2 : (2 : Nat) ≤ 2 ^ (p + 1) := by
            calc (2 : Nat) = 2 ^ 1 := rfl
            _ ≤ 2 ^ (p + 1) := Nat.pow_le_pow_right (by norm_num) (by omega)
          omega
        obtain ⟨hfA, hLA⟩ := find_preserved_rehash (q := p + 1) (by omega) hN
          hL hsz hnd hbudget2 hfind hreh
        exact ⟨hfA, p + 1, by omega, hLA⟩
    · have hid := rehash_if_needed_id hg hreh
      rw [hid]
      exact ⟨hfind, p, hp1, hL⟩

/-- Inserting another key preserves every `find` answer: the growth check
preserves it (`find_preserved_rifn`), and the probe walk then overwrites one
slot — an `Empty`/`Deleted` slot on a fresh insertion, the other key's own
slot on an assignment — that did not hold `k`, so the walk for `k` is
unchanged (`findLoop_set_frame2`). -/
theorem find_preserved_insert {p fuel : Nat} {h : Nat → Nat} {m m1 : Map}
    {k v k2 v2 pos : Nat} {ins : Bool}
    (hne : k2 ≠ k)
    (hp1 : 1 ≤ p) (hp62 : p ≤ 62)
    (hL : m.buckets.length = 2 ^ p)
    (hsz : m.size = filledCount m.buckets)
    (hnd : (filledKeys m.buckets).Nodup)
    (hbudget : (m.size : ℚ) ≤ m.max_load_factor * ((2 ^ p : Nat) : ℚ))
    (hmlf0 : 0 ≤ m.max_load_factor)
    (hfind : find h m k = some (some v))
    (hrun : insert_or_assign_impl fuel h m k2 v2 = some (m1, pos, ins)) :
    find h m1 k = some (some v) := by
  cases fuel with
  | zero => exact absurd hrun (by unfold insert_or_assign_impl; simp)
  | succ fu =>
    cases hreh : rehash_if_needed fu h m with
    | none =>
      unfold insert_or_assign_impl at hrun
      rw [hreh] at hrun
      exact Option.noConfusion hrun
    | some mA =>
      have hbud2 : (m.size : ℚ) ≤
          m.max_load_factor * ((2 ^ (p + 1) : Nat) : ℚ) := by
        calc (m.size : ℚ) ≤ m.max_load_factor * ((2 ^ p : Nat) : ℚ) := hbudget
          _ ≤ m.max_load_factor * ((2 ^ (p + 1) : Nat) : ℚ) := by
              apply mul_le_mul_of_nonneg_left ?_ hmlf0
              exact_mod_cast Nat.pow_le_pow_right (by norm_num) (by omega)
      obtain ⟨hfA, pA, hpA1, hLA⟩ := find_preserved_rifn hp1 hp62 hL hsz hnd
        hbud2 hfind hreh
      rw [impl_step hreh] at hrun
      cases hloop : insertLoop k2 v2 mA.buckets (bucket_index h mA.buckets k2)
          none mA.buckets.length with
      | none => rw [hloop] at hrun; exact Option.noConfusion hrun
      | some r =>
        obtain ⟨bs2, t2, ins2, wd2⟩ := r
        rw [hloop] at hrun
        have hmb : m1.buckets = bs2 := by
          cases ins2 with
          | true =>
            simp only [Option.some.injEq, Prod.mk.injEq] at hrun
            obtain ⟨hm1, _, _⟩ := hrun
            rw [← hm1]
          | false =>
            simp only [Option.some.injEq, Prod.mk.injEq] at hrun
            obtain ⟨hm1, _, _⟩ := hrun
            rw [← hm1]
        have hidx0 : bucket_index h mA.buckets k2 < mA.buckets.length := by
          rw [bucket_index_eq_mod hLA]
          exact Nat.mod_lt _ (length_pos_of_pow hLA)
        obtain ⟨hbs2, hT, _, hKF, hIT⟩ := insertLoop_eq hLA hloop
          (fun d hd => by cases hd) hidx0
        have hnold : ¬ KeyAt mA.buckets t2 k := by
          intro hKA
          cases ins2 with
          | false =>
            have hKA2 := hKF rfl
            obtain ⟨_, hk1⟩ := hKA
            obtain ⟨_, hk2⟩ := hKA2
            rw [hk1] at hk2
            have h4 : k = k2 := by injection hk2
            exact hne h4.symm
          | true =>
            exact (hIT rfl) hKA.1
        rw [find_eq_findLoop hLA] at hfA
        have hfr := findLoop_set_frame2 (⟨k2, v2, State.Filled⟩ : Bucket) hLA hT
          (by
            intro hstop
            rcases hstop with hc | hc
            · exact State.noConfusion hc
            · exact hne hc.2)
          hnold hfA
        have hlen2 : m1.buckets.length = 2 ^ pA := by
          rw [hmb, hbs2, List.length_set]
          exact hLA
        rw [find_eq_findLoop hlen2, hmb, hbs2]
        exact hfr

/-- Erasing another key preserves every `find` answer: a not-found erase
changes nothing; tombstoning the other key's slot does not stop `k`'s walk
(`findLoop_set_frame2` with a `Deleted` bucket); a compaction rehash
reinserts `k`'s surviving slot (`erase_compaction`). -/
theorem find_preserved_erase {p fuel : Nat} {h : Nat → Nat} {m m1 : Map}
    {k v k2 : Nat} {fl : Bool}
    (hne : k2 ≠ k)
    (hp1 : 1 ≤ p) (hp63 : p ≤ 63)
    (hL : m.buckets.length = 2 ^ p)
    (hsz : m.size = filledCount m.buckets)
    (hnd : (filledKeys m.buckets).Nodup)
    (hbudget : (m.size : ℚ) ≤ m.max_load_factor * ((2 ^ p : Nat) : ℚ))
    (hfind : find h m k = some (some v))
    (hrun : erase fuel h m k2 = some (fl, m1)) :
    find h m1 k = some (some v) := by
  rcases erase_cases hrun with ⟨_, heq⟩ | ⟨hfl, _⟩
  · rw [heq]
    exact hfind
  · rw [hfl] at hrun
    obtain ⟨i, b, hiL, hget, hbf, hbk, hcases⟩ := erase_elim hL hrun
    rcases hcases with ⟨_, hreh⟩ | ⟨_, hm1⟩
    · cases fuel with
      | zero => exact absurd hreh (by unfold rehash; simp)
      | succ fu =>
        obtain ⟨_, _, _, _, _, hins', _⟩ :=
          erase_compaction hp1 hp63 hL hget hbf hsz hnd
            (by
              calc (m.size : ℚ)
                  ≤ m.max_load_factor * ((2 ^ p : Nat) : ℚ) := hbudget
                _ = m.max_load_factor * (m.buckets.length : ℚ) := by rw [hL]
                _ ≤ m.max_load_factor * (m.buckets.length : ℚ) + 1 := by
                    linarith)
            hreh
        obtain ⟨j, hjL, hslot⟩ := find_some_slot hL hfind
        have hji : j ≠ i := by
          intro hc
          subst hc
          rw [hget] at hslot
          injection hslot with h2
          exact hne (hbk.symm.trans (congrArg Bucket.key h2))
        have hslot2 : (m.buckets.set i { b with state := State.Deleted }).get?
            j = some ⟨k, v, State.Filled⟩ := by
          rw [List.get?_set_ne _ _ (fun hc => hji hc.symm)]
          exact hslot
        obtain ⟨hjlt2, hjel⟩ := get?_eq_getElem_of_lt hslot2
        have hmem : (⟨k, v, State.Filled⟩ : Bucket) ∈
            m.buckets.set i { b with state := State.Deleted } :=
          hjel ▸ List.getElem_mem hjlt2
        exact hins' _ hmem rfl
    · have hL2 : (m.buckets.set i { b with state := State.Deleted }).length =
          2 ^ p := by
        rw [List.length_set]
        exact hL
      have hold : ¬ KeyAt m.buckets i k := by
        intro hKA
        obtain ⟨_, hk1⟩ := hKA
        rw [map_key_eq hget] at hk1
        have h2 : b.key = k := by injection hk1
        exact hne (hbk ▸ h2)
      rw [find_eq_findLoop hL] at hfind
      have hfr := findLoop_set_frame2 ({ b with state := State.Deleted }) hL
        hiL
        (by
          intro hstop
          rcases hstop with hc | hc
          · exact State.noConfusion hc
          · exact State.noConfusion hc.1)
        hold hfind
      have hLm1 : m1.buckets.length = 2 ^ p := by
        rw [hm1]
        exact hL2
      rw [find_eq_findLoop hLm1, show m1.buckets =
        m.buckets.set i { b with state := State.Deleted } from by rw [hm1]]
      exact hfr

end ClaimSupport

section Claims

/-- C1 (corrected).  The spec's load-factor bound does not hold as stated:
the growth check of `insert_or_assign_impl` runs BEFORE the insertion
(lines 57-67), so the insert that is about to happen is not counted, and the
post-insert load can exceed `max_load_factor_` (see the counterexample).
What does hold: when the pre-insert growth check finds nothing to do, the
load it just checked is at most `max_load_factor_`, the capacity does not
change, and the post-insert load exceeds the bound by at most the one new
entry, `1 / bucket_count`. -/
theorem C1_no_growth_load_bound {fuel : Nat} {h : Nat → Nat} {m : Map}
    {k v : Nat} {m' : Map} {pos : Nat} {ins : Bool}
    (hg : ¬ (m.buckets.isEmpty = true ∨ m.max_load_factor < current_load m))
    (hrun : insert_or_assign_impl fuel h m k v = some (m', pos, ins)) :
    current_load m ≤ m.max_load_factor ∧
    m'.buckets.length = m.buckets.length ∧
    current_load m' ≤ m.max_load_factor + 1 / (m.buckets.length : ℚ) := by
  obtain ⟨wd, hloop, hmlf, hcase⟩ := impl_no_rehash hg hrun
  have hload : current_load m ≤ m.max_load_factor := by
    push_neg at hg
    exact hg.2
  have hlen : m'.buckets.length = m.buckets.length := insertLoop_length hloop
  have hpos : 0 < m.buckets.length := by
    rcases Nat.eq_zero_or_pos m.buckets.length with h0 | hp
    · exfalso
      have hnil : m.buckets = [] := List.length_eq_zero.mp h0
      rw [hnil, insertLoop_nil] at hloop
      exact Option.noConfusion hloop
    · exact hp
  refine ⟨hload, hlen, ?_⟩
  have hsum : m'.size + m'.tombstones ≤ m.size + m.tombstones + 1 := by
    rcases hcase with ⟨_, hsz, htb⟩ | ⟨_, hsz, htb⟩
    · cases wd with
      | false => simp at htb; omega
      | true => simp at htb; omega
    · omega
  have hposQ : (0 : ℚ) < (m.buckets.length : ℚ) := by exact_mod_cast hpos
  have hcast : ((m'.size + m'.tombstones : Nat) : ℚ) ≤
      ((m.size + m.tombstones : Nat) : ℚ) + 1 := by exact_mod_cast hsum
  unfold current_load at hload ⊢
  rw [hlen]
  calc ((m'.size + m'.tombstones : Nat) : ℚ) / (m.buckets.length : ℚ)
      ≤ (((m.size + m.tombstones : Nat) : ℚ) + 1) / (m.buckets.length : ℚ) :=
        (div_le_div_right hposQ).mpr hcast
    _ = ((m.size + m.tombstones : Nat) : ℚ) / (m.buckets.length : ℚ)
        + 1 / (m.buckets.length : ℚ) := add_div _ _ _
    _ ≤ m.max_load_factor + 1 / (m.buckets.length : ℚ) :=
        add_le_add_right hload _

/-- C1 counterexample: a reachable two-slot table (`bucket_count = 2`
constructor, then one insert) on which a completed `insert_or_assign` leaves
load `2 / 2 = 1`, strictly above `max_load_factor_ = 0.7` — the pre-insert
growth check saw load `1/2 ≤ 0.7` and did nothing. -/
theorem C1_load_counterexample :
    Reachable exHash exm1 ∧
    insert_or_assign_impl 5 exHash exm1 1 11 = some (exm2, 1, true) ∧
    exm2.max_load_factor < current_load exm2 := by
  refine ⟨Reachable.insert_op (Reachable.bucket_ctor 2) exStep1, exStep2, ?_⟩
  have hl2 : current_load exm2 = 1 := by
    unfold current_load
    rw [show exm2.size = 2 from rfl, show exm2.tombstones = 0 from rfl,
      show exm2.buckets.length = 2 from by decide]
    norm_num
  rw [hl2, show exm2.max_load_factor = 7/10 from rfl]
  norm_num

/-- C1 witness: the amended bound checked on the concrete insert of `(0,10)`
into the fresh two-slot table. -/
theorem C1_no_growth_load_bound_example :
    (¬ ((mkMapWith 2).buckets.isEmpty = true ∨
      (mkMapWith 2).max_load_factor < current_load (mkMapWith 2))) ∧
    (current_load (mkMapWith 2) ≤ (mkMapWith 2).max_load_factor ∧
      exm1.buckets.length = (mkMapWith 2).buckets.length ∧
      current_load exm1 ≤ (mkMapWith 2).max_load_factor +
        1 / ((mkMapWith 2).buckets.length : ℚ)) :=
  ⟨ex_guard0, C1_no_growth_load_bound ex_guard0 exStep1⟩

/-- C6 (confirmed).  The `max_load_factor` setter errors exactly when
`f ≤ 0.1` or `f ≥ 0.95` (the complement of the open interval `(0.1, 0.95)`);
the error branch returns before anything is assigned, so the table — current
factor included — is untouched (the result is the same error constant for
every table).  On success the stored bound is exactly `f` and the result is
precisely what the immediately-run growth check produces (which may
rehash). -/
theorem C6_max_load_factor_validation (fuel : Nat) (h : Nat → Nat) (m : Map)
    (f : ℚ) :
    (set_max_load_factor fuel h m f =
        some (Except.error ConfigError.InvalidConfiguration) ↔
      (f ≤ 1/10 ∨ 19/20 ≤ f)) ∧
    (∀ m', set_max_load_factor fuel h m f = some (Except.ok m') →
      m'.max_load_factor = f ∧
      rehash_if_needed fuel h { m with max_load_factor := f } = some m') := by
  unfold set_max_load_factor
  by_cases hc : f ≤ 1/10 ∨ 19/20 ≤ f
  · rw [if_pos hc]
    refine ⟨⟨fun _ => hc, fun _ => rfl⟩, ?_⟩
    intro m' heq
    injection heq with heq
    exact Except.noConfusion heq
  · rw [if_neg hc]
    constructor
    · constructor
      · intro heq
        cases hrifn : rehash_if_needed fuel h { m with max_load_factor := f } with
        | none => rw [hrifn] at heq; exact Option.noConfusion heq
        | some m2 =>
          rw [hrifn] at heq
          have h2 : (some (Except.ok m2) : Option (Except ConfigError Map)) =
              some (Except.error ConfigError.InvalidConfiguration) := heq
          injection h2 with h3
          exact Except.noConfusion h3
      · intro hcc
        exact absurd hcc hc
    · intro m' heq
      cases hrifn : rehash_if_needed fuel h { m with max_load_factor := f } with
      | none => rw [hrifn] at heq; exact Option.noConfusion heq
      | some m2 =>
        rw [hrifn] at heq
        have h2 : (some (Except.ok m2) : Option (Except ConfigError Map)) =
            some (Except.ok m') := heq
        injection h2 with h3
        have hm2 : m2 = m' := by injection h3
        subst hm2
        refine ⟨?_, rfl⟩
        have hmlf := ((fuel_pack fuel).2.1 h _ m2 hrifn).1
        rw [hmlf]

/-- C6 witness: `max_load_factor(0.99)` fails with `InvalidConfiguration`
on the two-slot table, and the successful `max_load_factor(0.5)` run `c6ok`
stores exactly `0.5`. -/
theorem C6_validation_example :
    set_max_load_factor 4 exHash (mkMapWith 2) (99/100) =
      some (Except.error ConfigError.InvalidConfiguration) ∧
    c6res.max_load_factor = 1/2 := by
  constructor
  · exact (C6_max_load_factor_validation 4 exHash (mkMapWith 2) (99/100)).1.mpr
      (by norm_num)
  · exact ((C6_max_load_factor_validation 4 exHash (mkMapWith 2) (1/2)).2
      c6res c6ok).1

/-- C7 (confirmed).  On the 64-bit-representable range `n ≤ 2 ^ 63`,
`next_pow2 n` is the least power of two that is `≥ n`, clamped below at `2`
(for `n > 2 ^ 63` the bit-smeared `+ 1` wraps to `0`, covered by the clamped
form `next_pow2_clamped_pow` used by `rehash`); and every state reachable
through the public interface has, once its storage is non-empty, a
`bucket_count` equal to `2 ^ q` with `q ≥ 1`, hence a power of two that is
at least `2`. -/
theorem C7_pow2_capacity :
    (∀ n : Nat, n ≤ 2 ^ 63 →
      n ≤ next_pow2 n ∧
      2 ≤ next_pow2 n ∧
      (∃ q, 1 ≤ q ∧ next_pow2 n = 2 ^ q) ∧
      (∀ j : Nat, n ≤ 2 ^ j → 2 ≤ 2 ^ j → next_pow2 n ≤ 2 ^ j)) ∧
    (∀ (h : Nat → Nat) (m : Map), Reachable h m → m.buckets ≠ [] →
      ∃ q, 1 ≤ q ∧ m.buckets.length = 2 ^ q) := by
  constructor
  · intro n hn
    refine ⟨next_pow2_ge hn, next_pow2_two_le hn, next_pow2_pow hn, ?_⟩
    intro j hj hj2
    by_cases hn2 : n < 2
    · rw [next_pow2_small hn2]
      exact hj2
    · push_neg at hn2
      exact next_pow2_le_pow hn2 hn hj
  · intro h m hr hne
    rcases (reachable_inv hr).1 with hnil | hlp
    · exact absurd hnil hne
    · exact hlp

/-- C8 (confirmed).  `find` walks the probe sequence from
`bucket_index(k)`: it answers `v` exactly when some probe offset holds
`(k, v)` `Filled` and no earlier offset is `Empty` or `Filled` with key `k`
(`Deleted` slots and other keys are walked over), and it answers "not found"
exactly when the walk reaches an `Empty` slot the same way.  The model's
`find` is a pure function `Map → Nat → Option (Option Nat)` returning no
table, which is the shallow-embedding form of "no state mutation" (the C++
`find` only reads `buckets_`). -/
theorem C8_find_probe_walk {p : Nat} {h : Nat → Nat} {m : Map} {k : Nat}
    (hL : m.buckets.length = 2 ^ p) :
    (∀ v : Nat, find h m k = some (some v) ↔
      ∃ j, FoundAtProbe h m.buckets k v j) ∧
    (find h m k = some none ↔ ∃ j, EmptyAtProbe h m.buckets k j) := by
  have hpos : 0 < m.buckets.length := length_pos_of_pow hL
  have hidx : h k % m.buckets.length < m.buckets.length := Nat.mod_lt _ hpos
  constructor
  · intro v
    constructor
    · intro hf
      rw [find_eq_findLoop hL] at hf
      obtain ⟨j, hj, hpre, b, hb, _, hbv⟩ := findLoop_some hL hf hidx
      obtain ⟨hbs, hbk, hbval⟩ := hbv v rfl
      refine ⟨j, hj, ?_, ?_⟩
      · intro i hi b' hb'
        refine hpre i hi b' ?_
        rw [Nat.mod_add_mod]
        exact hb'
      · have hbeq : b = ⟨k, v, State.Filled⟩ := by
          cases b
          simp only [Bucket.mk.injEq]
          exact ⟨hbk, hbval, hbs⟩
        rw [Nat.mod_add_mod] at hb
        rw [hbeq] at hb
        exact hb
    · rintro ⟨j, hjL, hpre, hslot⟩
      rw [find_eq_findLoop hL]
      exact findLoop_found hL (j := j) (s := h k) (by omega) hpre hslot
  · constructor
    · intro hf
      rw [find_eq_findLoop hL] at hf
      obtain ⟨j, hj, hpre, b, hb, hbe, _⟩ := findLoop_some hL hf hidx
      refine ⟨j, hj, ?_, ?_⟩
      · intro i hi b' hb'
        refine hpre i hi b' ?_
        rw [Nat.mod_add_mod]
        exact hb'
      · rw [Nat.mod_add_mod] at hb
        rw [hb, show (some b).map Bucket.state = some b.state from rfl,
          hbe rfl]
    · rintro ⟨j, hjL, hpre, hslot⟩
      rw [find_eq_findLoop hL]
      refine findLoop_empty hL (j := j) (s := h k) (by omega) hpre ?_
      intro b hb
      rw [hb] at hslot
      have h2 : some b.state = some State.Empty := hslot
      injection h2

/-- C8 witness: the probe-walk characterization instantiated on the
concrete two-slot table `exm1`. -/
theorem C8_probe_walk_example :
    exm1.buckets.length = 2 ^ 1 ∧
    ((∀ v : Nat, find exHash exm1 0 = some (some v) ↔
        ∃ j, FoundAtProbe exHash exm1.buckets 0 v j) ∧
      (find exHash exm1 0 = some none ↔
        ∃ j, EmptyAtProbe exHash exm1.buckets 0 j)) :=
  ⟨by decide, C8_find_probe_walk (p := 1) (by decide)⟩

/-- C9 (confirmed).  On the empty (default-constructed, unallocated) storage
both `find` and `erase` return "not found" (`nullptr` / `false`) without
touching a probe index: both short-circuit on `buckets_.empty()` before
`bucket_index` is ever evaluated, and the table is returned unchanged. -/
theorem C9_empty_total {h : Nat → Nat} {fuel k : Nat} {m : Map}
    (hnil : m.buckets = []) :
    find h m k = some none ∧ erase fuel h m k = some (false, m) := by
  constructor
  · unfold find
    rw [hnil]
    rfl
  · unfold erase
    rw [hnil]
    rfl

/-- C9 witness: `find` and `erase` on the default-constructed table. -/
theorem C9_empty_example :
    mkMap.buckets = ([] : List Bucket) ∧
    (find exHash mkMap 0 = some none ∧
      erase 3 exHash mkMap 0 = some (false, mkMap)) :=
  ⟨rfl, C9_empty_total rfl⟩

/-- C10 (confirmed).  Every state reachable through the public interface
keeps `tombstones_` an exact count of the `Deleted` slots and keeps it at
most `bucket_count / 2`: `erase` compacts (rehash at the same capacity) as
soon as the count would exceed that bound, and `rehash` and `clear` reset it
to zero. -/
theorem C10_tombstone_bound {h : Nat → Nat} {m : Map} (hr : Reachable h m) :
    deletedCount m.buckets = m.tombstones ∧
    m.tombstones ≤ m.buckets.length / 2 :=
  ⟨(reachable_inv hr).2.1, (reachable_inv hr).2.2⟩

/-- C10 witness: the tombstone invariant checked on the table the
`bucket_count = 4` constructor reaches. -/
theorem C10_tombstone_example :
    deletedCount (mkMapWith 4).buckets = (mkMapWith 4).tombstones ∧
    (mkMapWith 4).tombstones ≤ (mkMapWith 4).buckets.length / 2 :=
  C10_tombstone_bound (h := exHash) (Reachable.bucket_ctor 4)

/-- C3 (corrected).  The spec's `reserve` formula rounds UP: it requires
`length ≥ ceil(n / max_load_factor) + 1`.  The code computes
`size_type(n / max_load_factor_) + 1`, i.e. it TRUNCATES the float quotient
(`Nat.floor` in the model), which is strictly smaller whenever the quotient
is not integral — see the counterexample.  What holds is the floor form:
with `needed = floor(n / max_load_factor) + 1`, `reserve n` does nothing
when `length ≥ needed` and otherwise rehashes to the least power of two
`≥ needed`.  The hypotheses delimit the verified regime: `needed`
64-bit-representable (no `next_pow2` wrap), stored keys pairwise distinct,
a positive factor, and enough room that the reinsertion loop triggers no
nested growth. -/
theorem C3_reserve_floor_capacity {fuel : Nat} {h : Nat → Nat} {m : Map}
    {n : Nat} {m' : Map}
    (hres : reserve fuel h m n = some m')
    (hneed : ⌊(n : ℚ) / m.max_load_factor⌋₊ + 1 ≤ 2 ^ 63)
    (hnd : (filledKeys m.buckets).Nodup)
    (hmlf0 : 0 < m.max_load_factor)
    (hbudget : ((filledKeys m.buckets).length : ℚ) ≤
      m.max_load_factor *
        ((⌊(n : ℚ) / m.max_load_factor⌋₊ + 1 : Nat) : ℚ)) :
    (⌊(n : ℚ) / m.max_load_factor⌋₊ + 1 ≤ m.buckets.length → m' = m) ∧
    (m.buckets.length < ⌊(n : ℚ) / m.max_load_factor⌋₊ + 1 →
      ⌊(n : ℚ) / m.max_load_factor⌋₊ + 1 ≤ m'.buckets.length ∧
      ∃ q, 1 ≤ q ∧ m'.buckets.length = 2 ^ q) := by
  unfold reserve at hres
  by_cases hc : m.buckets.length < ⌊(n : ℚ) / m.max_load_factor⌋₊ + 1
  · rw [if_pos hc] at hres
    refine ⟨fun hle => absurd hc (by omega), fun _ => ?_⟩
    cases fuel with
    | zero => exact absurd hres (by unfold rehash; simp)
    | succ fu =>
      rw [rehash_unfold] at hres
      obtain ⟨q, hq1, hq⟩ := next_pow2_pow hneed
      have h2le : 2 ≤ next_pow2 (⌊(n : ℚ) / m.max_load_factor⌋₊ + 1) :=
        next_pow2_two_le hneed
      have hclamp : (if next_pow2 (⌊(n : ℚ) / m.max_load_factor⌋₊ + 1) < 2
          then 2 else next_pow2 (⌊(n : ℚ) / m.max_load_factor⌋₊ + 1)) =
          next_pow2 (⌊(n : ℚ) / m.max_load_factor⌋₊ + 1) := if_neg (by omega)
      rw [hclamp] at hres
      have hge : ⌊(n : ℚ) / m.max_load_factor⌋₊ + 1 ≤
          next_pow2 (⌊(n : ℚ) / m.max_load_factor⌋₊ + 1) := next_pow2_ge hneed
      have hfreshL : ({ m with
          buckets := List.replicate
            (next_pow2 (⌊(n : ℚ) / m.max_load_factor⌋₊ + 1)) emptyBucket
          size := 0
          tombstones := 0 } : Map).buckets.length = 2 ^ q := by
        show (List.replicate (next_pow2 (⌊(n : ℚ) / m.max_load_factor⌋₊ + 1))
          emptyBucket).length = 2 ^ q
        rw [List.length_replicate, hq]
      obtain ⟨hlen', _, _, _, _, _, _, _, _⟩ :=
        reinsertAll_good m.buckets hres hfreshL rfl
          (deletedCount_replicate_empty _) (filledCount_replicate_empty _).symm
          (by
            show ((0 + (filledKeys m.buckets).length : Nat) : ℚ) ≤
              m.max_load_factor * ((List.replicate
                (next_pow2 (⌊(n : ℚ) / m.max_load_factor⌋₊ + 1))
                emptyBucket).length : ℚ)
            rw [List.length_replicate, Nat.zero_add]
            calc ((filledKeys m.buckets).length : ℚ)
                ≤ m.max_load_factor *
                  ((⌊(n : ℚ) / m.max_load_factor⌋₊ + 1 : Nat) : ℚ) := hbudget
              _ ≤ m.max_load_factor *
                  ((next_pow2 (⌊(n : ℚ) / m.max_load_factor⌋₊ + 1) : Nat) : ℚ)
                  := by
                    apply mul_le_mul_of_nonneg_left ?_ (le_of_lt hmlf0)
                    exact_mod_cast hge)
          hnd
          (fun k0 _ => not_HasKey_replicate _ k0)
          (fun k0 v0 hp0 => absurd hp0 (not_HasPair_replicate _ k0 v0))
      constructor
      · rw [hlen']
        show ⌊(n : ℚ) / m.max_load_factor⌋₊ + 1 ≤
          (List.replicate (next_pow2 (⌊(n : ℚ) / m.max_load_factor⌋₊ + 1))
            emptyBucket).length
        rw [List.length_replicate]
        exact hge
      · exact ⟨q, hq1, by rw [hlen']; exact hfreshL⟩
  · rw [if_neg hc] at hres
    injection hres with hres
    exact ⟨fun _ => hres.symm, fun hlt => absurd hlt hc⟩

/-- C3 counterexample: `reserve 11` on the reachable 16-slot table.  The
spec requires `length ≥ ceil(11 / 0.7) + 1 = 17`, but the code computes
`needed = trunc(11 / 0.7) + 1 = 16`, finds `16 > 16` false, does not rehash,
and returns with only 16 slots. -/
theorem C3_reserve_counterexample :
    Reachable exHash (mkMapWith 16) ∧
    reserve 1 exHash (mkMapWith 16) 11 = some (mkMapWith 16) ∧
    (mkMapWith 16).buckets.length <
      ⌈((11 : Nat) : ℚ) / (mkMapWith 16).max_load_factor⌉₊ + 1 := by
  have hfl : ⌊((11 : Nat) : ℚ) / (mkMapWith 16).max_load_factor⌋₊ = 15 := by
    rw [show (mkMapWith 16).max_load_factor = 7/10 from rfl,
      show ((11 : Nat) : ℚ) / (7/10) = 110/7 from by norm_num,
      Nat.floor_eq_iff (by norm_num)]
    norm_num
  refine ⟨Reachable.bucket_ctor 16, ?_, ?_⟩
  · show (if (mkMapWith 16).buckets.length <
        ⌊((11 : Nat) : ℚ) / (mkMapWith 16).max_load_factor⌋₊ + 1 then
      rehash 1 exHash (mkMapWith 16)
        (⌊((11 : Nat) : ℚ) / (mkMapWith 16).max_load_factor⌋₊ + 1)
    else some (mkMapWith 16)) = some (mkMapWith 16)
    rw [if_neg (by
      rw [hfl, show (mkMapWith 16).buckets.length = 16 from by decide]
      norm_num)]
  · have hcl : ⌈((11 : Nat) : ℚ) / (mkMapWith 16).max_load_factor⌉₊ = 16 := by
      rw [show (mkMapWith 16).max_load_factor = 7/10 from rfl,
        show ((11 : Nat) : ℚ) / (7/10) = 110/7 from by norm_num,
        Nat.ceil_eq_iff (by norm_num)]
      norm_num
    rw [hcl, show (mkMapWith 16).buckets.length = 16 from by decide]
    norm_num

/-- C3 witness: the amended floor-based capacity statement checked on the
concrete `reserve 2` run that grows the two-slot table to four slots. -/
theorem C3_reserve_example :
    reserve 9 exHash (mkMapWith 2) 2 = some (mkMapWith 4) ∧
    ((mkMapWith 2).buckets.length <
        ⌊((2 : Nat) : ℚ) / (mkMapWith 2).max_load_factor⌋₊ + 1 →
      ⌊((2 : Nat) : ℚ) / (mkMapWith 2).max_load_factor⌋₊ + 1 ≤
        (mkMapWith 4).buckets.length ∧
      ∃ q, 1 ≤ q ∧ (mkMapWith 4).buckets.length = 2 ^ q) := by
  have hfl : ⌊((2 : Nat) : ℚ) / (mkMapWith 2).max_load_factor⌋₊ = 2 := by
    rw [show (mkMapWith 2).max_load_factor = 7/10 from rfl,
      show ((2 : Nat) : ℚ) / (7/10) = 20/7 from by norm_num,
      Nat.floor_eq_iff (by norm_num)]
    norm_num
  refine ⟨c3run, (C3_reserve_floor_capacity c3run ?_ ?_ ?_ ?_).2⟩
  · rw [hfl]
    norm_num
  · decide
  · rw [show (mkMapWith 2).max_load_factor = 7/10 from rfl]
    norm_num
  · rw [hfl, show (mkMapWith 2).max_load_factor = 7/10 from rfl,
      show filledKeys (mkMapWith 2).buckets = ([] : List Nat) from by decide]
    norm_num

/-- C4 (confirmed).  When a successful `erase` pushes the tombstone count
past `bucket_count / 2`, the table immediately rehashes at its own length:
`next_pow2` fixes the (power-of-two) length, so the capacity is unchanged,
the rebuilt table is tombstone-free, and every remaining live pair — every
`Filled` slot other than the erased key — is still findable with its value.
The hypotheses are the table's standing invariants (power-of-two capacity in
the 64-bit range, accurate size, pairwise-distinct stored keys) plus the
load-factor room that rules out nested growth during reinsertion. -/
theorem C4_erase_compaction_rehash {p fuel : Nat} {h : Nat → Nat} {m : Map}
    {k : Nat} {m' : Map}
    (hp1 : 1 ≤ p) (hp63 : p ≤ 63)
    (hL : m.buckets.length = 2 ^ p)
    (hsz : m.size = filledCount m.buckets)
    (hnd : (filledKeys m.buckets).Nodup)
    (hbudget : (m.size : ℚ) ≤ m.max_load_factor * (m.buckets.length : ℚ) + 1)
    (hguard : m.buckets.length / 2 < m.tombstones + 1)
    (hrun : erase fuel h m k = some (true, m')) :
    m'.buckets.length = m.buckets.length ∧
    m'.tombstones = 0 ∧
    deletedCount m'.buckets = 0 ∧
    (∀ k' v', k' ≠ k → HasPair m.buckets k' v' →
      find h m' k' = some (some v')) := by
  obtain ⟨i, b, hiL, hget, hbf, hbk, hcases⟩ := erase_elim hL hrun
  rcases hcases with ⟨_, hreh⟩ | ⟨hno, _⟩
  swap
  · omega
  cases fuel with
  | zero => exact absurd hreh (by unfold rehash; simp)
  | succ fu =>
    obtain ⟨hlen', htomb', hdel', hsize', hacc', hins', hnokey'⟩ :=
      erase_compaction hp1 hp63 hL hget hbf hsz hnd hbudget hreh
    refine ⟨hlen', htomb', hdel', ?_⟩
    intro k' v' hne hp
    obtain ⟨j, hjL, hFA⟩ := hp
    have hji : j ≠ i := by
      intro hc
      subst hc
      unfold FilledAt at hFA
      rw [hget] at hFA
      injection hFA with hFA2
      exact hne ((congrArg Bucket.key hFA2).symm.trans hbk)
    have hFA2 : FilledAt (m.buckets.set i { b with state := State.Deleted })
        j k' v' := by
      unfold FilledAt at hFA ⊢
      rw [List.get?_set_ne _ _ (fun hc => hji hc.symm)]
      exact hFA
    obtain ⟨hjlt2, hjel⟩ := get?_eq_getElem_of_lt hFA2
    have hmem : (⟨k', v', State.Filled⟩ : Bucket) ∈
        m.buckets.set i { b with state := State.Deleted } :=
      hjel ▸ List.getElem_mem hjlt2
    exact hins' _ hmem rfl

/-- C4 witness: erasing the last live key of the concrete two-slot table
`c4m` (one live entry, one tombstone) triggers the same-capacity compaction
rehash and lands on the clean two-slot table. -/
theorem C4_compaction_example :
    erase 5 exHash c4m 0 = some (true, mkMapWith 2) ∧
    ((mkMapWith 2).buckets.length = c4m.buckets.length ∧
      (mkMapWith 2).tombstones = 0 ∧
      deletedCount (mkMapWith 2).buckets = 0 ∧
      (∀ k' v', k' ≠ 0 → HasPair c4m.buckets k' v' →
        find exHash (mkMapWith 2) k' = some (some v'))) := by
  constructor
  · rfl
  · exact C4_erase_compaction_rehash (p := 1) (by decide) (by decide)
      (by decide) (by decide) (by decide)
      (by
        rw [show c4m.size = 1 from rfl,
          show c4m.max_load_factor = 7/10 from rfl,
          show c4m.buckets.length = 2 from by decide]
        norm_num)
      (by decide)
      (show erase 5 exHash c4m 0 = some (true, mkMapWith 2) from rfl)

/-- C5 (corrected).  The size/tombstone accounting of the claim holds, but
"an immediately following find(k) reports not-found" does not hold on every
reachable state: on a table with no `Empty` slot the post-erase probe walk
of `find` has no stopper — it cycles over `Deleted` and mismatched `Filled`
slots forever (fuel exhaustion `none` in the model, an infinite loop in the
C++) and never reports not-found; see the counterexample on the reachable
full two-slot table.  The amended statement: after `erase k` succeeds,
`size_` has dropped by one, `tombstones_` has grown by one when no
compaction fired (the new count staying within `bucket_count / 2`), and
`find k` reports not-found PROVIDED the table keeps an `Empty` slot
(`size + tombstones < bucket_count`) — with the other standing
invariants. -/
theorem C5_erase_not_found {p fuel : Nat} {h : Nat → Nat} {m : Map} {k : Nat}
    {m' : Map}
    (hp1 : 1 ≤ p) (hp63 : p ≤ 63)
    (hL : m.buckets.length = 2 ^ p)
    (hsz : m.size = filledCount m.buckets)
    (hacc : deletedCount m.buckets = m.tombstones)
    (hnd : (filledKeys m.buckets).Nodup)
    (hspace : m.size + m.tombstones < m.buckets.length)
    (hbudget : (m.size : ℚ) ≤ m.max_load_factor * (m.buckets.length : ℚ) + 1)
    (hrun : erase fuel h m k = some (true, m')) :
    find h m' k = some none ∧
    m'.size = m.size - 1 ∧
    (m.tombstones + 1 ≤ m.buckets.length / 2 →
      m'.tombstones = m.tombstones + 1) := by
  obtain ⟨i, b, hiL, hget, hbf, hbk, hcases⟩ := erase_elim hL hrun
  obtain ⟨hsz1, hfc2, hdc2⟩ := erase_slot_counts hget hbf hsz
  rcases hcases with ⟨hgd, hreh⟩ | ⟨hgd, hm'⟩
  · cases fuel with
    | zero => exact absurd hreh (by unfold rehash; simp)
    | succ fu =>
      obtain ⟨hlen', htomb', hdel', hsize', hacc', hins', hnokey'⟩ :=
        erase_compaction hp1 hp63 hL hget hbf hsz hnd hbudget hreh
      have hL' : m'.buckets.length = 2 ^ p := by rw [hlen', hL]
      have hnkm' : ¬ HasKey m'.buckets k := by
        refine hnokey' k ?_
        intro hmem
        obtain ⟨j, hjL2, hKA⟩ := KeyAt_of_mem_filledKeys hmem
        exact erase_slot_no_key hnd hget hbf hbk hjL2 hKA
      have hemp : ∃ e < m'.buckets.length,
          (m'.buckets.get? e).map Bucket.state = some State.Empty := by
        apply exists_empty_slot
        rw [hdel', ← hacc', hsize', hL']
        omega
      refine ⟨?_, hsize', ?_⟩
      · rw [find_eq_findLoop hL']
        exact findLoop_none_of_no_key hL'
          (fun i2 hi2 hKA => hnkm' ⟨i2, hi2, hKA⟩) hemp
      · intro hle
        omega
  · have hL2 : (m.buckets.set i { b with state := State.Deleted }).length =
        2 ^ p := by
      rw [List.length_set]
      exact hL
    refine ⟨?_, by rw [hm'], fun _ => by rw [hm']⟩
    have hLm' : m'.buckets.length = 2 ^ p := by
      rw [hm']
      exact hL2
    rw [find_eq_findLoop hLm', show m'.buckets =
      m.buckets.set i { b with state := State.Deleted } from by rw [hm']]
    apply findLoop_none_of_no_key hL2
    · exact fun j hj hKA => erase_slot_no_key hnd hget hbf hbk hj hKA
    · apply exists_empty_slot
      rw [hfc2, hdc2, hacc, List.length_set]
      omega

/-- C5 counterexample: on the reachable completely full two-slot table
`exm2`, `erase 0` succeeds (slot `0` tombstoned in place, `size` 2 → 1,
`tombstones` 0 → 1, no compaction since `1 ≤ 2 / 2`), yet the immediately
following `find 0` never reports not-found: the walk now sees
`Deleted, Filled(1)` and cycles with no `Empty` stopper — the fuel model
yields `none` (the C++ `for (;;)` loop never returns), not the "not found"
answer `some none`. -/
theorem C5_find_diverges_counterexample :
    Reachable exHash exm2 ∧
    erase 5 exHash exm2 0 = some (true, exm2e) ∧
    find exHash exm2e 0 = none :=
  ⟨Reachable.insert_op (Reachable.insert_op
    (Reachable.bucket_ctor 2) exStep1) exStep2, rfl, rfl⟩

/-- C5 witness: erasing key `0` of the concrete four-slot table `c5m`
tombstones its slot in place; the key is gone from `find`, the size dropped
to zero and the tombstone counter reads one. -/
theorem C5_erase_example :
    erase 5 exHash c5m 0 = some (true, c5m2) ∧
    (find exHash c5m2 0 = some none ∧
      c5m2.size = c5m.size - 1 ∧
      (c5m.tombstones + 1 ≤ c5m.buckets.length / 2 →
        c5m2.tombstones = c5m.tombstones + 1)) := by
  constructor
  · rfl
  · exact C5_erase_not_found (p := 2) (by decide) (by decide) (by decide)
      (by decide) (by decide) (by decide) (by decide)
      (by
        rw [show c5m.size = 1 from rfl,
          show c5m.max_load_factor = 7/10 from rfl,
          show c5m.buckets.length = 4 from by decide]
        norm_num)
      (show erase 5 exHash c5m 0 = some (true, c5m2) from rfl)

end Claims

end FlatMap
